import Mathlib

/-!
# tcplimit: bandwidth-limited connections

A shallow embedding of the Go package `tcplimit` (files `conn.go`, `limiter.go`,
`clock.go`) together with theorems about it.

Conventions of the embedding

* Go pointers become explicit state passing.  A method with a pointer receiver
  takes the receiver state and returns the result together with the new state.
* The interfaces `Clock` and `net.Conn` are implemented outside the package.
  They are embedded as oracles: the k-th call of a method may answer anything,
  and every call is recorded in a log, so theorems can speak about which calls
  were made, in which order and with which arguments.
* `rate.Limit` is a `float64`, `time.Time` and `time.Duration` count time.  All
  three are embedded as exact rationals (seconds for time).
* `sync.Mutex` is dropped: every operation below is one sequential execution.
-/

namespace Tcplimit

/-! ## Errors, bytes and Go integers -/

/-- Error values.  The two package level errors of `conn.go`, and `other k` for
any error value produced by the wrapped stream (for example `io.EOF`). -/
inductive Error where
  | ErrInvalidLimit
  | ErrUnfulfillableReservation
  | other (code : Nat)
  deriving DecidableEq, Repr

/-- One byte of a buffer. -/
abbrev Byte := Fin 256

/-- Reduction of an integer to the range of the 64 bit Go type `int`. -/
def wrapInt (x : Int) : Int := (x + 2 ^ 63) % 2 ^ 64 - 2 ^ 63

/-- Go addition on `int`, wrapping around on overflow. -/
def addInt (a b : Int) : Int := wrapInt (a + b)

/-- The constant `chunkSize` of `conn.go`. -/
def chunkSize : Int := 1024

/-- The Go type `time.Time`: a point in time, in seconds. -/
abbrev Time := ℚ

/-- The Go type `time.Duration`: a length of time, in seconds. -/
abbrev Duration := ℚ

/-! ## The token bucket (package `golang.org/x/time/rate`) -/

namespace rate

/-- Modelled from the spec: the type `rate.Limit` of the imported package, a rate
in tokens per second.  The `float64` of the library is taken as an exact
rational. -/
abbrev Limit := ℚ

/-- Modelled from the spec: the unbounded rate `rate.Inf` of the imported package.
It is given the value of the largest finite `float64`, which no other rate
exceeds. -/
def Inf : Limit := 2 ^ 1024 - 2 ^ 971

/-- Modelled from the spec: the type `rate.Limiter` of the imported package
`golang.org/x/time/rate`, which is not part of the repository.  It is the
RateBudget of the specification: a maximum sustained rate (`limit`, possibly
unbounded), a fixed maximum burst size (`burst`) and the internal token state
(`tokens`, the tokens banked as of time `last`). -/
structure Limiter where
  limit : Limit
  burst : Int
  tokens : ℚ
  last : Time
  deriving DecidableEq

/-- Modelled from the spec: `rate.NewLimiter(r, b)`.  A new budget with rate `r`
and burst `b` whose bucket is initially full (the specification speaks of the
initial burst of a budget, which a zero rate budget can spend once). -/
def NewLimiter (r : Limit) (b : Int) : Limiter :=
  { limit := r, burst := b, tokens := b, last := 0 }

/-- Modelled from the spec: `(*rate.Limiter).Limit`, the current rate. -/
def Limiter.Limit (lim : Limiter) : rate.Limit := lim.limit

/-- Modelled from the spec: the tokens that accrue during `d` seconds at rate
`limit`.  A rate that is not positive never regenerates tokens. -/
def tokensFromDuration (limit : Limit) (d : Duration) : ℚ :=
  if limit ≤ 0 then 0 else d * limit

/-- Modelled from the spec: the token level of the budget settled up to time `t`
under the current rate, capped by the burst size.  The budget is not changed. -/
def Limiter.advance (lim : Limiter) (t : Time) : ℚ :=
  let last := if t < lim.last then t else lim.last
  let tokens := lim.tokens + tokensFromDuration lim.limit (t - last)
  if (lim.burst : ℚ) < tokens then (lim.burst : ℚ) else tokens

/-- Modelled from the spec: `(*rate.Limiter).SetLimitAt(t, newLimit)`.  Updates the
accrual rate as of `t`, first settling token accrual up to `t` under the old
rate, preserving banked tokens. -/
def Limiter.SetLimitAt (lim : Limiter) (t : Time) (newLimit : rate.Limit) : Limiter :=
  { lim with last := t, tokens := lim.advance t, limit := newLimit }

/-- Modelled from the spec: the type `rate.Reservation`, the outcome of requesting
`tokens` tokens: infeasible (`ok = false`) or feasible, the reserved tokens
being available at `timeToAct`. -/
structure Reservation where
  ok : Bool
  tokens : Int
  timeToAct : Time
  deriving DecidableEq

/-- Modelled from the spec: `(*rate.Limiter).ReserveN(t, n)`.
An unbounded budget admits every request at once and keeps no account of it,
whatever its burst (the tests of the repository use
`rate.NewLimiter(rate.Inf, 0)` as a global budget that never blocks).
Otherwise the request is infeasible when `n` exceeds `burst`, or when the bucket
cannot ever accumulate `n` tokens (the rate is not positive and the tokens
banked are insufficient).  A feasible request debits the tokens immediately;
its delay is the time until `n` tokens have accrued. -/
def Limiter.ReserveN (lim : Limiter) (t : Time) (n : Int) : Reservation × Limiter :=
  if lim.limit = Inf then
    ({ ok := true, tokens := n, timeToAct := t }, lim)
  else
    let tokens := lim.advance t - n
    if n ≤ lim.burst ∧ (0 ≤ tokens ∨ 0 < lim.limit) then
      let wait : Duration := if tokens < 0 then -tokens / lim.limit else 0
      ({ ok := true, tokens := n, timeToAct := t + wait },
       { lim with last := t, tokens := tokens })
    else
      ({ ok := false, tokens := 0, timeToAct := t }, lim)

/-- Modelled from the spec: `(*rate.Reservation).OK`. -/
def Reservation.OK (r : Reservation) : Bool := r.ok

/-- Modelled from the spec: `(*rate.Reservation).DelayFrom(t)`, the time to wait
from `t` until the reserved tokens are available (zero when they already are). -/
def Reservation.DelayFrom (r : Reservation) (t : Time) : Duration :=
  if r.timeToAct - t < 0 then 0 else r.timeToAct - t

/-- Modelled from the spec: `(*rate.Reservation).CancelAt(t)` on the budget the
reservation was taken from.  Credits back the debited tokens as of `t`; nothing
happens for an infeasible reservation, an unbounded budget, an empty
reservation or one whose time to act has already passed. -/
def Reservation.CancelAt (r : Reservation) (t : Time) (lim : Limiter) : Limiter :=
  if r.ok = false then lim
  else if lim.limit = Inf ∨ r.tokens = 0 ∨ r.timeToAct < t then lim
  else
    let tokens := lim.advance t + r.tokens
    { lim with last := t,
               tokens := if (lim.burst : ℚ) < tokens then (lim.burst : ℚ) else tokens }

end rate

/-! ## The clock (`clock.go`) -/

/-- The interface `Clock`.  `OnNow k` is the time the k-th call of `Now` returns,
`nows` counts the calls of `Now` made so far, and `sleeps` lists the arguments
of the calls of `Sleep` made so far, oldest first. -/
structure Clock where
  OnNow : Nat → Time
  nows : Nat
  sleeps : List Duration

/-- The method `Clock.Now`. -/
def Clock.Now (c : Clock) : Time × Clock :=
  (c.OnNow c.nows, { c with nows := c.nows + 1 })

/-- The method `Clock.Sleep`. -/
def Clock.Sleep (c : Clock) (d : Duration) : Clock :=
  { c with sleeps := c.sleeps ++ [d] }

/-! ## The wrapped stream (`net.Conn`) -/

/-- The interface `net.Conn` of the wrapped stream.
`OnRead k buf` answers the k-th call of `Read`, made on a buffer holding `buf`:
the bytes the stream stores into the buffer, the count and the error it returns.
`OnWrite k data` answers the k-th call of `Write` with a count and an error.
`OnClose k` answers the k-th call of `Close`.
`reads` and `writes` list the slices handed to `Read` and `Write` so far, oldest
first, and `closes` counts the calls of `Close`. -/
structure NetConn where
  OnRead : Nat → List Byte → List Byte × Int × Option Error
  OnWrite : Nat → List Byte → Int × Option Error
  OnClose : Nat → Option Error
  reads : List (List Byte)
  writes : List (List Byte)
  closes : Nat

/-- What a call on the wrapped stream gives back: the count `n`, the error `err`
and the content `buf` of the slice after the call. -/
structure IOResult where
  n : Int
  err : Option Error
  buf : List Byte
  deriving DecidableEq

/-- The method `Read` of the wrapped stream, on a slice holding `p`.  The stream
overwrites a leading part of the slice; the length of the slice is fixed. -/
def NetConn.Read (nc : NetConn) (p : List Byte) : IOResult × NetConn :=
  let r := nc.OnRead nc.reads.length p
  let data := r.1.take p.length
  ({ n := r.2.1, err := r.2.2, buf := data ++ p.drop data.length },
   { nc with reads := nc.reads ++ [p] })

/-- The method `Write` of the wrapped stream, on a slice holding `p`. -/
def NetConn.Write (nc : NetConn) (p : List Byte) : IOResult × NetConn :=
  let r := nc.OnWrite nc.writes.length p
  ({ n := r.1, err := r.2, buf := p }, { nc with writes := nc.writes ++ [p] })

/-- The method `Close` of the wrapped stream. -/
def NetConn.Close (nc : NetConn) : Option Error × NetConn :=
  (nc.OnClose nc.closes, { nc with closes := nc.closes + 1 })

/-! ## The limited connection (`conn.go`) -/

/-- The struct `conn`, with the objects its fields point to held by value: the
wrapped stream `Conn`, the shared limiter `globalLimiter`, the private limiter
`localLimiter` and the clock.  `close` tells whether the field `close` holds a
hook (is not nil); the hook itself acts on the Limiter that made the connection
and is embedded there. -/
structure conn where
  Conn : NetConn
  globalLimiter : rate.Limiter
  localLimiter : rate.Limiter
  clock : Clock
  close : Bool

/-- The function `wrapConn`. -/
def wrapConn (nc : NetConn) (global localLim : rate.Limiter) (clock : Clock)
    (close : Bool) : conn :=
  { Conn := nc, globalLimiter := global, localLimiter := localLim, clock := clock,
    close := close }

/-- The method `conn.do`.  The argument `f` is the method of the wrapped stream to
run on the slice `p`.  The result holds the count, the error and the content of
the slice afterwards. -/
def conn.do (c : conn) (p : List Byte) (f : NetConn → List Byte → IOResult × NetConn) :
    IOResult × conn :=
  let now := c.clock.Now
  let globalReservation := c.globalLimiter.ReserveN now.1 p.length
  if globalReservation.1.OK = false then
    ({ n := 0, err := some Error.ErrUnfulfillableReservation, buf := p },
     { c with clock := now.2, globalLimiter := globalReservation.2 })
  else
    let localReservation := c.localLimiter.ReserveN now.1 p.length
    if localReservation.1.OK = false then
      ({ n := 0, err := some Error.ErrUnfulfillableReservation, buf := p },
       { c with clock := now.2,
                globalLimiter := globalReservation.1.CancelAt now.1 globalReservation.2,
                localLimiter := localReservation.2 })
    else
      let clock := now.2.Sleep
        (max (globalReservation.1.DelayFrom now.1) (localReservation.1.DelayFrom now.1))
      let r := f c.Conn p
      (r.1, { c with clock := clock, globalLimiter := globalReservation.2,
                     localLimiter := localReservation.2, Conn := r.2 })

/-- The Go builtin `min` on `int`, applied to `chunkSize` and a length. -/
def minLen (n : Nat) : Nat := (min chunkSize (n : Int)).toNat

/-- The method `conn.Read` on a buffer holding `p`.  The result holds the count,
the error and the content of the whole buffer afterwards. -/
def conn.Read (c : conn) (p : List Byte) : IOResult × conn :=
  let r := c.do (p.take (minLen p.length)) NetConn.Read
  ({ r.1 with buf := r.1.buf ++ p.drop (minLen p.length) }, r.2)

/-- The loop of `forEachChunk` for a size of at least one, started with the loop
variables `i` and `j`.  The callback `f` is a closure: it gets a sub-slice and the
state it captured and returns its verdict with the new state.  The first
argument bounds the number of iterations; `forEachChunk` passes the length of
the slice, which the loop never exceeds as `i` grows by at least one each time.
The loop variables are natural numbers: in Go they stay inside the range of
`int` for every slice of at most 2^62 elements, hence for every slice whose
elements take up memory (see `forEachChunk.loop64`). -/
def forEachChunk.loop {T σ : Type} (p : List T) (size : Nat) (f : List T → σ → Bool × σ) :
    Nat → Nat → Nat → σ → σ
  | 0, _, _, s => s
  | fuel + 1, i, j, s =>
    if i < p.length then
      let j1 := j + size
      let j2 := if j1 > p.length then p.length else j1
      let r := f ((p.take j2).drop i) s
      if r.1 = false then r.2 else forEachChunk.loop p size f fuel (i + size) j2 r.2
    else s

/-- The function `forEachChunk`. -/
def forEachChunk {T σ : Type} (p : List T) (size : Int) (f : List T → σ → Bool × σ)
    (s : σ) : σ :=
  if size < 1 then s else forEachChunk.loop p size.toNat f p.length 0 0 s

/-- The loop of `forEachChunk` once more, with the loop variables `i` and `j` as
64 bit Go integers: the additions wrap around, and the slice expression `p[i:j]`
panics unless `0 ≤ i ≤ j ≤ len(p)`, which ends the run without a result
(`none`).  Running out of iterations while `i < len(p)` gives no result
either.  It serves to show that `forEachChunk.loop` loses nothing by counting in
natural numbers. -/
def forEachChunk.loop64 {T σ : Type} (p : List T) (size : Int)
    (f : List T → σ → Bool × σ) : Nat → Int → Int → σ → Option σ
  | 0, i, _, s => if i < (p.length : Int) then none else some s
  | fuel + 1, i, j, s =>
    if i < (p.length : Int) then
      let j1 := addInt j size
      let j2 := if j1 > (p.length : Int) then (p.length : Int) else j1
      if 0 ≤ i ∧ i ≤ j2 ∧ j2 ≤ (p.length : Int) then
        let r := f ((p.take j2.toNat).drop i.toNat) s
        if r.1 = false then some r.2
        else forEachChunk.loop64 p size f fuel (addInt i size) j2 r.2
      else none
    else some s

/-- The function `forEachChunk` with the loop variables as 64 bit Go integers. -/
def forEachChunk64 {T σ : Type} (p : List T) (size : Int) (f : List T → σ → Bool × σ)
    (s : σ) : Option σ :=
  if size < 1 then some s else forEachChunk.loop64 p size f p.length 0 0 s

/-- The variables the callback of `conn.Write` captures: the named results `n` and
`err`, and the connection. -/
structure WriteState where
  n : Int
  err : Option Error
  c : conn

/-- The callback `conn.Write` passes to `forEachChunk`. -/
def conn.writeChunk (p : List Byte) (s : WriteState) : Bool × WriteState :=
  let r := s.c.do p NetConn.Write
  (decide (r.1.err = none), { n := addInt s.n r.1.n, err := r.1.err, c := r.2 })

/-- The method `conn.Write`. -/
def conn.Write (c : conn) (p : List Byte) : (Int × Option Error) × conn :=
  let s := forEachChunk p chunkSize conn.writeChunk { n := 0, err := none, c := c }
  ((s.n, s.err), s.c)

/-- The method `conn.SetLimit`. -/
def conn.SetLimit (c : conn) (limit : rate.Limit) : Option Error × conn :=
  if limit < 0 then (some Error.ErrInvalidLimit, c)
  else
    let now := c.clock.Now
    (none, { c with clock := now.2, localLimiter := c.localLimiter.SetLimitAt now.1 limit })

/-- The method `conn.Limit`. -/
def conn.Limit (c : conn) : rate.Limit := c.localLimiter.Limit

/-! ## The Limiter (`limiter.go`) -/

/-- The part of a connection object that is private to it: the wrapped stream, the
local limiter and whether a close hook is installed. -/
structure connCell where
  Conn : NetConn
  localLimiter : rate.Limiter
  close : Bool

/-- The struct `Limiter` together with the connection objects it has wrapped.
Connections are named by their address, a number.  `conns` holds the keys of the
Go map (the live set), `heap` the private part of the connection object at each
address, and `next` the first address not handed out yet.  The global limiter
and the clock are shared: every connection made by the Limiter points to them. -/
structure Limiter where
  globalLimiter : rate.Limiter
  clock : Clock
  localLimit : rate.Limit
  conns : List Nat
  heap : Nat → connCell
  next : Nat

/-- The connection object at address `a`, as a `conn` value. -/
def Limiter.connAt (l : Limiter) (a : Nat) : conn :=
  wrapConn (l.heap a).Conn l.globalLimiter (l.heap a).localLimiter l.clock (l.heap a).close

/-- Stores the connection value `c` back at address `a`, the shared limiter and
clock included. -/
def Limiter.putConn (l : Limiter) (a : Nat) (c : conn) : Limiter :=
  { l with globalLimiter := c.globalLimiter,
           clock := c.clock,
           heap := Function.update l.heap a
             { Conn := c.Conn, localLimiter := c.localLimiter, close := c.close } }

/-- The method `Limiter.LimitConn`.  Returns the address of the new connection. -/
def Limiter.LimitConn (l : Limiter) (nc : NetConn) : Nat × Limiter :=
  let ret := wrapConn nc l.globalLimiter (rate.NewLimiter l.localLimit chunkSize) l.clock true
  (l.next,
   { l with heap := Function.update l.heap l.next
              { Conn := ret.Conn, localLimiter := ret.localLimiter, close := ret.close },
            next := l.next + 1,
            conns := if l.next ∈ l.conns then l.conns else l.conns ++ [l.next] })

/-- The method `Limiter.SetGlobalLimit`. -/
def Limiter.SetGlobalLimit (l : Limiter) (limit : rate.Limit) : Option Error × Limiter :=
  if limit < 0 then (some Error.ErrInvalidLimit, l)
  else
    let now := l.clock.Now
    (none, { l with clock := now.2,
                    globalLimiter := l.globalLimiter.SetLimitAt now.1 limit })

/-- The method `Limiter.GlobalLimit`. -/
def Limiter.GlobalLimit (l : Limiter) : rate.Limit := l.globalLimiter.Limit

/-- The method `conn.SetLimit` called on the connection at address `a`. -/
def Limiter.connSetLimit (l : Limiter) (a : Nat) (limit : rate.Limit) :
    Option Error × Limiter :=
  let r := (l.connAt a).SetLimit limit
  (r.1, l.putConn a r.2)

/-- The method `conn.Limit` called on the connection at address `a`. -/
def Limiter.connLimit (l : Limiter) (a : Nat) : rate.Limit := (l.connAt a).Limit

/-- The method `Limiter.SetLocalLimit`.  The loop over the map visits the live
connections in the order of the list `conns`; Go fixes no order, and the facts
proved about the loop hold for every list of addresses. -/
def Limiter.SetLocalLimit (l : Limiter) (limit : rate.Limit) : Option Error × Limiter :=
  if limit < 0 then (some Error.ErrInvalidLimit, l)
  else
    let l1 := { l with localLimit := limit }
    (none, l1.conns.foldl (fun acc a => (acc.connSetLimit a limit).2) l1)

/-- The method `Limiter.LocalLimit`. -/
def Limiter.LocalLimit (l : Limiter) : rate.Limit := l.localLimit

/-- The method `Limiter.deleteConn`. -/
def Limiter.deleteConn (l : Limiter) (a : Nat) : Limiter :=
  { l with conns := l.conns.filter (fun b => decide (b ≠ a)) }

/-- The method `conn.Close` called on the connection at address `a`.  The hook of
a connection made by `LimitConn` is `deleteConn` of the Limiter that made it. -/
def Limiter.connClose (l : Limiter) (a : Nat) : Option Error × Limiter :=
  let l1 := if (l.connAt a).close = true then l.deleteConn a else l
  let r := (l1.connAt a).Conn.Close
  (r.1, l1.putConn a { l1.connAt a with Conn := r.2 })

/-- The method `conn.Read` called on the connection at address `a`. -/
def Limiter.connRead (l : Limiter) (a : Nat) (p : List Byte) : IOResult × Limiter :=
  let r := (l.connAt a).Read p
  (r.1, l.putConn a r.2)

/-- The method `conn.Write` called on the connection at address `a`. -/
def Limiter.connWrite (l : Limiter) (a : Nat) (p : List Byte) :
    (Int × Option Error) × Limiter :=
  let r := (l.connAt a).Write p
  (r.1, l.putConn a r.2)

/-- The methods `conn` inherits from the embedded `net.Conn` (the deadline setters
and the address getters) go to the wrapped stream alone.  Whatever they, or the
outside world, do to the stream of the connection at address `a` leaves it in
some state `nc`. -/
def Limiter.connRaw (l : Limiter) (a : Nat) (nc : NetConn) : Limiter :=
  l.putConn a { l.connAt a with Conn := nc }

/-- The type `LimiterOption`. -/
abbrev LimiterOption := Limiter → Limiter

/-- The option `WithGlobalLimit`. -/
def WithGlobalLimit (_limit : rate.Limit) : LimiterOption :=
  fun l => { l with globalLimiter := rate.NewLimiter rate.Inf chunkSize }

/-- The option `WithLocalLimit`. -/
def WithLocalLimit (limit : rate.Limit) : LimiterOption :=
  fun l => { l with localLimit := limit }

/-- The option `WithClock`. -/
def WithClock (clock : Clock) : LimiterOption :=
  fun l => { l with clock := clock }

/-- A wrapped stream that has answered nothing yet and answers every call with
zero and no error.  It fills the addresses of the heap that hold no connection. -/
def NetConn.idle : NetConn :=
  { OnRead := fun _ _ => ([], 0, none), OnWrite := fun _ _ => (0, none),
    OnClose := fun _ => none, reads := [], writes := [], closes := 0 }

/-- The function `NewLimiter`.  The package variable `defaultClock` is passed as
the first argument. -/
def NewLimiter (defaultClock : Clock) (opts : List LimiterOption) : Limiter :=
  let ret : Limiter :=
    { globalLimiter := rate.NewLimiter rate.Inf chunkSize,
      localLimit := rate.Inf,
      conns := [],
      clock := defaultClock,
      heap := fun _ =>
        { Conn := NetConn.idle, localLimiter := rate.NewLimiter rate.Inf chunkSize,
          close := false },
      next := 0 }
  opts.foldl (fun acc opt => opt acc) ret

/-! ## The calls `do` makes, in order -/

/-- A call that `conn.do` makes on one of the objects it works with: the clock,
the global limiter, the local limiter, the global reservation or the wrapped
stream.  Each call carries its arguments.  The queries `OK` and `DelayFrom` on a
reservation change nothing and are left out. -/
inductive Call where
  | Now
  | ReserveGlobal (t : Time) (n : Int)
  | ReserveLocal (t : Time) (n : Int)
  | CancelGlobal (t : Time)
  | Sleep (d : Duration)
  | Raw (p : List Byte)
  deriving DecidableEq

/-- The calls `conn.do` makes on the slice `p` in state `c`, in the order of the
statements of the method.  It follows the same branches as `conn.do`, which
gives the states and results of these calls. -/
def conn.doCalls (c : conn) (p : List Byte) : List Call :=
  let now := c.clock.Now
  let globalReservation := c.globalLimiter.ReserveN now.1 p.length
  if globalReservation.1.OK = false then
    [Call.Now, Call.ReserveGlobal now.1 p.length]
  else
    let localReservation := c.localLimiter.ReserveN now.1 p.length
    if localReservation.1.OK = false then
      [Call.Now, Call.ReserveGlobal now.1 p.length, Call.ReserveLocal now.1 p.length,
       Call.CancelGlobal now.1]
    else
      [Call.Now, Call.ReserveGlobal now.1 p.length, Call.ReserveLocal now.1 p.length,
       Call.Sleep
         (max (globalReservation.1.DelayFrom now.1) (localReservation.1.DelayFrom now.1)),
       Call.Raw p]

/-- The argument of a call of `Sleep`, if the call is one. -/
def Call.slept : Call → Option Duration
  | Call.Sleep d => some d
  | _ => none

/-- The slice handed to the wrapped stream, if the call is one on the stream. -/
def Call.handed : Call → Option (List Byte)
  | Call.Raw p => some p
  | _ => none

/-! ## Reference notions used to state the theorems -/

/-- Reference definition of chunking, in the words of the specification: the
consecutive sub-slices `p[0:size]`, `p[size:2*size]`, ... of `p`, of which there
are the quotient of the length by `size`, rounded up.  The last one ends where
`p` ends. -/
def chunks {T : Type} (size : Nat) (p : List T) : List (List T) :=
  (List.range ((p.length + size - 1) / size)).map
    (fun k => (p.take (k * size + size)).drop (k * size))

/-- Reference definition of a sequential pass: the callback is run on the
sub-slices of the list in order, and no sub-slice is visited after the first one
on which the callback returns false. -/
def runChunks {T σ : Type} (f : List T → σ → Bool × σ) : List (List T) → σ → σ
  | [], s => s
  | ch :: rest, s => if (f ch s).1 = false then (f ch s).2 else runChunks f rest (f ch s).2

/-- Whether a transfer of the slice `p` is admitted in state `c`: the reservation
on the global and the one on the local limiter, both made for the length of `p`
at the next reading of the clock, are feasible. -/
def conn.admitted (c : conn) (p : List Byte) : Bool :=
  ((c.globalLimiter.ReserveN (c.clock.Now).1 p.length).1.OK) &&
  ((c.localLimiter.ReserveN (c.clock.Now).1 p.length).1.OK)

/-- The state of the connection after `do` has been run, for writing, on each
slice of the list in order. -/
def conn.afterWrites (c : conn) (chs : List (List Byte)) : conn :=
  chs.foldl (fun acc ch => (acc.do ch NetConn.Write).2) c

/-- The state of the callback of `conn.Write` after it has been run on each slice
of the list in order, whatever its verdicts. -/
def conn.writeThrough (s : WriteState) (chs : List (List Byte)) : WriteState :=
  chs.foldl (fun acc ch => (conn.writeChunk ch acc).2) s

/-- Every slice of the list, passed to `do` for writing in order starting from
state `c`, comes back without an error. -/
def conn.ErrFree (c : conn) : List (List Byte) → Prop
  | [] => True
  | ch :: rest => (c.do ch NetConn.Write).1.err = none ∧
      conn.ErrFree (c.do ch NetConn.Write).2 rest

/-- Every slice of the list, handled in order starting from state `c`, is admitted
and the wrapped stream writes it in full without error. -/
def conn.FullyWritten (c : conn) : List (List Byte) → Prop
  | [] => True
  | ch :: rest => c.admitted ch = true ∧ (c.Conn.Write ch).1.n = ch.length ∧
      (c.Conn.Write ch).1.err = none ∧ conn.FullyWritten (c.do ch NetConn.Write).2 rest

/-- A callback together with a record of its invocations: the sub-slice of every
call is appended to a log kept next to the state of the callback. -/
def recorded {T σ : Type} (f : List T → σ → Bool × σ) :
    List T → List (List T) × σ → Bool × (List (List T) × σ) :=
  fun ch s => ((f ch s.2).1, (s.1 ++ [ch], (f ch s.2).2))

/-- The callback returns true on every sub-slice of the list when it is called on
them in order, starting in state `s`. -/
def AllTrue {T σ : Type} (f : List T → σ → Bool × σ) : List (List T) → σ → Prop
  | [], _ => True
  | ch :: rest, s => (f ch s).1 = true ∧ AllTrue f rest (f ch s).2

/-- The state of the callback after it has been called on every sub-slice of the
list in order, starting in state `s`. -/
def passAll {T σ : Type} (f : List T → σ → Bool × σ) (chs : List (List T)) (s : σ) : σ :=
  chs.foldl (fun acc ch => (f ch acc).2) s

/-! ## States a Limiter can reach -/

/-- The options the package exports. -/
def IsOption (opt : LimiterOption) : Prop :=
  (∃ r, opt = WithGlobalLimit r) ∨ (∃ r, opt = WithLocalLimit r) ∨ (∃ c, opt = WithClock c)

/-- The states reachable from `NewLimiter` through the public operations
`LimitConn`, `SetGlobalLimit`, `SetLocalLimit`, and `SetLimit`, `Close`, `Read`,
`Write` and the methods of the embedded `net.Conn` on any connection `LimitConn`
has handed out (an address below `next`), live or closed. -/
inductive Reachable : Limiter → Prop
  | new (defaultClock : Clock) (opts : List LimiterOption) :
      (∀ o ∈ opts, IsOption o) → Reachable (NewLimiter defaultClock opts)
  | limitConn (l : Limiter) (nc : NetConn) : Reachable l → Reachable (l.LimitConn nc).2
  | setGlobalLimit (l : Limiter) (r : rate.Limit) :
      Reachable l → Reachable (l.SetGlobalLimit r).2
  | setLocalLimit (l : Limiter) (r : rate.Limit) :
      Reachable l → Reachable (l.SetLocalLimit r).2
  | connSetLimit (l : Limiter) (a : Nat) (r : rate.Limit) :
      Reachable l → a < l.next → Reachable (l.connSetLimit a r).2
  | connClose (l : Limiter) (a : Nat) :
      Reachable l → a < l.next → Reachable (l.connClose a).2
  | connRead (l : Limiter) (a : Nat) (p : List Byte) :
      Reachable l → a < l.next → Reachable (l.connRead a p).2
  | connWrite (l : Limiter) (a : Nat) (p : List Byte) :
      Reachable l → a < l.next → Reachable (l.connWrite a p).2
  | connRaw (l : Limiter) (a : Nat) (nc : NetConn) :
      Reachable l → a < l.next → Reachable (l.connRaw a nc)

/-- The record of overrides after an accepted `SetLocalLimit`: the live
connections have been given the default again, the others keep their entry. -/
def overridesAfterSetLocalLimit (conns : List Nat) (ov : Nat → Option rate.Limit) :
    Nat → Option rate.Limit :=
  fun a => if a ∈ conns then none else ov a

/-- The reachable states of `Reachable`, each with a record of the overrides in its
history: `ov a = some r` when `SetLimit(r)` was the last call of `Conn.SetLimit`
accepted on the connection at address `a` and no `SetLocalLimit` accepted since
has overwritten it; `ov a = none` otherwise.  A rejected call (negative rate)
leaves the record as it is. -/
inductive ReachableWith : Limiter → (Nat → Option rate.Limit) → Prop
  | new (defaultClock : Clock) (opts : List LimiterOption) :
      (∀ o ∈ opts, IsOption o) → ReachableWith (NewLimiter defaultClock opts) (fun _ => none)
  | limitConn (l : Limiter) (ov : Nat → Option rate.Limit) (nc : NetConn) :
      ReachableWith l ov → ReachableWith (l.LimitConn nc).2 (Function.update ov l.next none)
  | setGlobalLimit (l : Limiter) (ov : Nat → Option rate.Limit) (r : rate.Limit) :
      ReachableWith l ov → ReachableWith (l.SetGlobalLimit r).2 ov
  | setLocalLimit (l : Limiter) (ov : Nat → Option rate.Limit) (r : rate.Limit) :
      ReachableWith l ov →
      ReachableWith (l.SetLocalLimit r).2
        (if r < 0 then ov else overridesAfterSetLocalLimit l.conns ov)
  | connSetLimit (l : Limiter) (ov : Nat → Option rate.Limit) (a : Nat) (r : rate.Limit) :
      ReachableWith l ov → a < l.next →
      ReachableWith (l.connSetLimit a r).2
        (if r < 0 then ov else Function.update ov a (some r))
  | connClose (l : Limiter) (ov : Nat → Option rate.Limit) (a : Nat) :
      ReachableWith l ov → a < l.next → ReachableWith (l.connClose a).2 ov
  | connRead (l : Limiter) (ov : Nat → Option rate.Limit) (a : Nat) (p : List Byte) :
      ReachableWith l ov → a < l.next → ReachableWith (l.connRead a p).2 ov
  | connWrite (l : Limiter) (ov : Nat → Option rate.Limit) (a : Nat) (p : List Byte) :
      ReachableWith l ov → a < l.next → ReachableWith (l.connWrite a p).2 ov
  | connRaw (l : Limiter) (ov : Nat → Option rate.Limit) (a : Nat) (nc : NetConn) :
      ReachableWith l ov → a < l.next → ReachableWith (l.connRaw a nc) ov

/-! ## Concrete values used to instantiate the theorems -/

/-- A clock like the one of `TestConnReadWriteConsistency`: every call of `Now`
returns a time one second later than the call before. -/
def testClock : Clock := { OnNow := fun k => k, nows := 0, sleeps := [] }

/-- The scenario of `TestLimiterLocalLimitPropagation` before its last call: a new
Limiter, the local limit set to 123, then ten connections wrapped. -/
def tenConns : Limiter :=
  (List.range 10).foldl (fun l _ => (l.LimitConn NetConn.idle).2)
    ((NewLimiter testClock []).SetLocalLimit 123).2

/-- The stream of `mock.NewNoopConn` before it is closed: `Read` and `Write` return
the length of the slice and no error, and leave the buffer as it is. -/
def noopConn : NetConn :=
  { OnRead := fun _ p => (p, p.length, none), OnWrite := fun _ p => (p.length, none),
    OnClose := fun _ => none, reads := [], writes := [], closes := 0 }

/-- The connection of `TestConnInvalidLimit`: the noop stream wrapped with two
unbounded limiters of burst zero. -/
def testConn : conn :=
  wrapConn noopConn (rate.NewLimiter rate.Inf 0) (rate.NewLimiter rate.Inf 0) testClock false

/-- The connection of `TestConnErrUnfulfillableLocalReservation`, freshly made:
the noop stream, an unbounded global limiter and a local limiter of rate zero
and burst `chunkSize`. -/
def zeroConn : conn :=
  wrapConn noopConn (rate.NewLimiter rate.Inf 0) (rate.NewLimiter 0 chunkSize) testClock false

/-- The connection `zeroConn` once the initial burst of its local limiter has been
spent: the local limiter has rate zero and no tokens banked. -/
def spentConn : conn :=
  wrapConn noopConn (rate.NewLimiter rate.Inf 0)
    { limit := 0, burst := chunkSize, tokens := 0, last := 0 } testClock false

/-- A stream whose `Write` takes one byte and then fails: it returns the count 1
together with an error. -/
def shortWriteConn : NetConn :=
  { OnRead := fun _ p => (p, p.length, none), OnWrite := fun _ _ => (1, some (Error.other 0)),
    OnClose := fun _ => none, reads := [], writes := [], closes := 0 }

/-- The stream `shortWriteConn` wrapped with two unbounded limiters. -/
def shortConn : conn :=
  wrapConn shortWriteConn (rate.NewLimiter rate.Inf 0) (rate.NewLimiter rate.Inf 0) testClock
    false

/-- A new Limiter with one connection wrapped. -/
def oneConn : Limiter := ((NewLimiter testClock []).LimitConn noopConn).2

/-- The Limiter `oneConn` after `SetLimit(5)` has been called on its connection. -/
def oneConnSet : Limiter := (oneConn.connSetLimit 0 5).2

/-- A new Limiter with the global limit set to 100 and two connections wrapped. -/
def pacedLimiter : Limiter :=
  ((((NewLimiter testClock []).SetGlobalLimit 100).2.LimitConn noopConn).2.LimitConn
    noopConn).2

/-- The Limiter `pacedLimiter` after a paced transfer: one byte has been written
through its first connection. -/
def usedLimiter : Limiter := (pacedLimiter.connWrite 0 [5]).2

/-- The Limiter `usedLimiter` after `SetLimit(5)` has been accepted on its first
connection; the second connection has not been touched. -/
def overriddenLimiter : Limiter := (usedLimiter.connSetLimit 0 5).2

/-- The record of overrides of `overriddenLimiter`: rate 5 on the first
connection. -/
def overriddenRecord : Nat → Option rate.Limit :=
  Function.update (Function.update (Function.update (fun _ => none) 0 none) 1 none) 0 (some 5)

/-- A freshly made connection whose global limiter has rate `g` and whose local
limiter has rate zero and no tokens banked: the global reservation is feasible
and the local one is not. -/
def refundConn (g : rate.Limit) : conn :=
  wrapConn noopConn (rate.NewLimiter g chunkSize)
    { limit := 0, burst := chunkSize, tokens := 0, last := 0 } testClock false

/-- A connection whose limiters both start empty, the global one refilling at one
token per second and the local one at two: a request of four bytes at time zero
has to wait four seconds for the global and two seconds for the local budget. -/
def pacedConn : conn :=
  wrapConn noopConn { limit := 1, burst := chunkSize, tokens := 0, last := 0 }
    { limit := 2, burst := chunkSize, tokens := 0, last := 0 } testClock false

/-- A callback without state that always returns true, as the callback of
`TestForEachChunk` does. -/
def keepGoing : List Nat → Unit → Bool × Unit := fun _ s => (true, s)

/-- A callback without state that always returns false. -/
def stopAtOnce : List Nat → Unit → Bool × Unit := fun _ s => (false, s)

/-- A stream whose first `Write` takes the whole slice and whose later calls of
`Write` fail, returning the count `nn` together with an error. -/
def failLaterStream (nn : Int) : NetConn :=
  { OnRead := fun _ p => (p, p.length, none),
    OnWrite := fun k p => if k = 0 then (p.length, none) else (nn, some (Error.other 0)),
    OnClose := fun _ => none, reads := [], writes := [], closes := 0 }

/-- The stream `failLaterStream nn` wrapped with two unbounded limiters. -/
def failLaterConn (nn : Int) : conn :=
  wrapConn (failLaterStream nn) (rate.NewLimiter rate.Inf 0) (rate.NewLimiter rate.Inf 0)
    testClock false

/-! # Theorems -/

set_option maxRecDepth 100000

/-! ## Auxiliary facts about the heap of connections -/

theorem Limiter.putConn_connAt (l : Limiter) (a : Nat) : l.putConn a (l.connAt a) = l := by
  cases l
  simp [Limiter.putConn, Limiter.connAt, wrapConn]

theorem conn.SetLimit_neg (c : conn) (r : rate.Limit) (hr : r < 0) :
    c.SetLimit r = (some Error.ErrInvalidLimit, c) := by
  simp [conn.SetLimit, hr]

theorem Limiter.connSetLimit_neg (l : Limiter) (a : Nat) (r : rate.Limit) (hr : r < 0) :
    l.connSetLimit a r = (some Error.ErrInvalidLimit, l) := by
  simp [Limiter.connSetLimit, conn.SetLimit_neg _ r hr, Limiter.putConn_connAt]

theorem Limiter.connSetLimit_conns (l : Limiter) (a : Nat) (r : rate.Limit) :
    (l.connSetLimit a r).2.conns = l.conns := by
  simp [Limiter.connSetLimit, Limiter.putConn]

theorem Limiter.connSetLimit_localLimit (l : Limiter) (a : Nat) (r : rate.Limit) :
    (l.connSetLimit a r).2.localLimit = l.localLimit := by
  simp [Limiter.connSetLimit, Limiter.putConn]

theorem Limiter.connSetLimit_globalLimit (l : Limiter) (a : Nat) (r : rate.Limit) :
    (l.connSetLimit a r).2.GlobalLimit = l.GlobalLimit := by
  by_cases hr : r < 0
  · rw [Limiter.connSetLimit_neg l a r hr]
  · simp [Limiter.connSetLimit, Limiter.putConn, conn.SetLimit, hr, Limiter.GlobalLimit,
      Limiter.connAt, wrapConn]

theorem Limiter.connSetLimit_self (l : Limiter) (a : Nat) (r : rate.Limit) (hr : 0 ≤ r) :
    (l.connSetLimit a r).2.connLimit a = r := by
  simp [Limiter.connSetLimit, Limiter.putConn, conn.SetLimit, not_lt.mpr hr, Limiter.connLimit,
    Limiter.connAt, wrapConn, conn.Limit, rate.Limiter.Limit, rate.Limiter.SetLimitAt]

theorem Limiter.connSetLimit_other (l : Limiter) (a b : Nat) (r : rate.Limit) (hb : b ≠ a) :
    (l.connSetLimit a r).2.connLimit b = l.connLimit b := by
  by_cases hr : r < 0
  · rw [Limiter.connSetLimit_neg l a r hr]
  · simp [Limiter.connSetLimit, Limiter.putConn, conn.SetLimit, hr, Limiter.connLimit,
      Limiter.connAt, wrapConn, conn.Limit, rate.Limiter.Limit, Function.update_noteq hb]

/-- The loop of `SetLocalLimit` over any list of addresses: the connections on the
list end with rate `r`, all others keep their rate, and the live set and the
default are untouched. -/
theorem Limiter.setAll_spec (r : rate.Limit) (hr : 0 ≤ r) (as : List Nat) :
    ∀ l : Limiter,
      let l2 := as.foldl (fun acc a => (acc.connSetLimit a r).2) l
      l2.conns = l.conns ∧ l2.localLimit = l.localLimit ∧ l2.GlobalLimit = l.GlobalLimit ∧
      ∀ b, l2.connLimit b = if b ∈ as then r else l.connLimit b := by
  induction as with
  | nil => intro l; simp
  | cons a as ih =>
    intro l
    have h := ih (l.connSetLimit a r).2
    simp only [List.foldl_cons] at h ⊢
    refine ⟨?_, ?_, ?_, ?_⟩
    · rw [h.1, Limiter.connSetLimit_conns]
    · rw [h.2.1, Limiter.connSetLimit_localLimit]
    · rw [h.2.2.1, Limiter.connSetLimit_globalLimit]
    · intro b
      rw [h.2.2.2 b]
      by_cases hb : b ∈ as
      · simp [hb]
      · by_cases hba : b = a
        · subst hba; simp [hb, Limiter.connSetLimit_self l b r hr]
        · simp [hb, hba, Limiter.connSetLimit_other l a b r hba]

theorem Limiter.SetLocalLimit_nonneg (l : Limiter) (r : rate.Limit) (hr : 0 ≤ r) :
    l.SetLocalLimit r = (none, ({ l with localLimit := r } : Limiter).conns.foldl
      (fun acc a => (acc.connSetLimit a r).2) { l with localLimit := r }) := by
  simp [Limiter.SetLocalLimit, not_lt.mpr hr]

/-! ## The loop of forEachChunk -/

theorem chunks_count_lt (len size k : Nat) (hs : 0 < size) :
    k < (len + size - 1) / size ↔ k * size < len := by
  rw [Nat.lt_iff_add_one_le, Nat.le_div_iff_mul_le hs, Nat.add_mul]
  omega

/-- The loop visits the sub-slices numbered `k`, `k + 1`, ... of the reference
chunking, provided the iteration bound covers the part of the slice not yet
visited. -/
theorem forEachChunk.loop_eq {T σ : Type} (p : List T) (size : Nat) (hs : 0 < size)
    (f : List T → σ → Bool × σ) :
    ∀ (fuel k : Nat) (s : σ), p.length ≤ fuel + k →
      forEachChunk.loop p size f fuel (k * size) (min (k * size) p.length) s =
        runChunks f ((List.range' k ((p.length + size - 1) / size - k)).map
          (fun k => (p.take (k * size + size)).drop (k * size))) s := by
  intro fuel
  induction fuel with
  | zero =>
    intro k s hk
    have hge : ¬ k < (p.length + size - 1) / size := by
      rw [chunks_count_lt _ _ _ hs]
      have : k ≤ k * size := Nat.le_mul_of_pos_right k hs
      omega
    have h0 : (p.length + size - 1) / size - k = 0 := by omega
    simp [forEachChunk.loop, h0, runChunks]
  | succ fuel ih =>
    intro k s hk
    by_cases hlt : k * size < p.length
    · have hk2 : k < (p.length + size - 1) / size := (chunks_count_lt _ _ _ hs).mpr hlt
      have hn : (p.length + size - 1) / size - k
          = ((p.length + size - 1) / size - (k + 1)) + 1 := by omega
      have hmin : min (k * size) p.length = k * size := by omega
      have hj : (if k * size + size > p.length then p.length else k * size + size)
          = min ((k + 1) * size) p.length := by
        rw [Nat.add_mul, Nat.one_mul]
        split <;> omega
      have htake : p.take (min ((k + 1) * size) p.length) = p.take (k * size + size) := by
        rw [Nat.add_mul, Nat.one_mul]
        by_cases h : k * size + size ≤ p.length
        · rw [Nat.min_eq_left h]
        · rw [Nat.min_eq_right (by omega), List.take_of_length_le (le_refl _),
            List.take_of_length_le (by omega)]
      have hi : k * size + size = (k + 1) * size := by rw [Nat.add_mul, Nat.one_mul]
      rw [hn, List.range'_succ, List.map_cons]
      simp only [forEachChunk.loop, hlt, if_true, hmin, hj, htake, runChunks]
      split
      · rfl
      · rw [hi]
        exact ih (k + 1) _ (by omega)
    · have hge : ¬ k < (p.length + size - 1) / size := by
        rw [chunks_count_lt _ _ _ hs]; exact hlt
      have h0 : (p.length + size - 1) / size - k = 0 := by omega
      simp [forEachChunk.loop, hlt, h0, runChunks]

/-- The function `forEachChunk` with a size of at least one is the sequential
pass over the reference chunking. -/
theorem forEachChunk_eq_runChunks {T σ : Type} (p : List T) (size : Int) (hs : 1 ≤ size)
    (f : List T → σ → Bool × σ) (s : σ) :
    forEachChunk p size f s = runChunks f (chunks size.toNat p) s := by
  have hpos : 0 < size.toNat := by omega
  have h := forEachChunk.loop_eq p size.toNat hpos f p.length 0 s (by omega)
  simp only [Nat.zero_mul, Nat.zero_min, Nat.sub_zero] at h
  simp only [forEachChunk, not_lt.mpr hs, if_false, chunks, List.range_eq_range', h]

/-! ## Facts about the reference chunking -/

theorem chunks_flatten_take {T : Type} (size : Nat) (p : List T) (m : Nat) :
    ((List.range m).map (fun k => (p.take (k * size + size)).drop (k * size))).flatten
      = p.take (m * size) := by
  induction m with
  | zero => simp
  | succ m ih =>
    rw [List.range_succ, List.map_append, List.flatten_append, ih]
    simp only [List.map_cons, List.map_nil, List.flatten_cons, List.flatten_nil,
      List.append_nil]
    have h1 : p.take (m * size) = (p.take (m * size + size)).take (m * size) := by
      rw [List.take_take, Nat.min_eq_left (Nat.le_add_right _ _)]
    rw [h1, List.take_append_drop, Nat.add_mul, Nat.one_mul]

/-- The sub-slices of the reference chunking, put together again, are the slice. -/
theorem chunks_flatten {T : Type} (size : Nat) (hs : 0 < size) (p : List T) :
    (chunks size p).flatten = p := by
  rw [chunks, chunks_flatten_take]
  apply List.take_of_length_le
  by_contra h
  have h2 := (chunks_count_lt p.length size _ hs).mpr (not_le.mp h)
  omega

theorem chunks_sum_length {T : Type} (size : Nat) (hs : 0 < size) (p : List T) :
    ((chunks size p).map List.length).sum = p.length := by
  rw [← List.length_flatten, chunks_flatten size hs]

/-! ## Facts about `do` -/

theorem conn.do_admitted (c : conn) (p : List Byte)
    (f : NetConn → List Byte → IOResult × NetConn) (h : c.admitted p = true) :
    (c.do p f).1 = (f c.Conn p).1 ∧ (c.do p f).2.Conn = (f c.Conn p).2 := by
  simp only [conn.admitted, Bool.and_eq_true] at h
  simp [conn.do, h.1, h.2]

theorem conn.do_admitted_limiters (c : conn) (p : List Byte)
    (f : NetConn → List Byte → IOResult × NetConn) (h : c.admitted p = true) :
    (c.do p f).2.globalLimiter = (c.globalLimiter.ReserveN (c.clock.Now).1 p.length).2 ∧
    (c.do p f).2.localLimiter = (c.localLimiter.ReserveN (c.clock.Now).1 p.length).2 := by
  simp only [conn.admitted, Bool.and_eq_true] at h
  simp [conn.do, h.1, h.2]

theorem conn.do_not_admitted (c : conn) (p : List Byte)
    (f : NetConn → List Byte → IOResult × NetConn) (h : c.admitted p = false) :
    (c.do p f).1 = { n := 0, err := some Error.ErrUnfulfillableReservation, buf := p } ∧
    (c.do p f).2.Conn = c.Conn := by
  simp only [conn.admitted, Bool.and_eq_false_iff] at h
  by_cases hg : (c.globalLimiter.ReserveN (c.clock.Now).1 p.length).1.OK = false
  · simp [conn.do, hg]
  · rcases h with h | h
    · exact absurd h hg
    · simp [conn.do, hg, h]

theorem conn.do_clock_nows (c : conn) (p : List Byte)
    (f : NetConn → List Byte → IOResult × NetConn) :
    (c.do p f).2.clock.nows = c.clock.nows + 1 := by
  unfold conn.do
  simp only [Clock.Now, Clock.Sleep]
  split
  · rfl
  · split <;> rfl

theorem conn.admitted_of_err_none (c : conn) (p : List Byte)
    (f : NetConn → List Byte → IOResult × NetConn) (h : (c.do p f).1.err = none) :
    c.admitted p = true := by
  by_contra hn
  have h2 := (conn.do_not_admitted c p f (by simpa using hn)).1
  rw [h2] at h
  simp at h

theorem conn.do_writes (c : conn) (p : List Byte) :
    (c.do p NetConn.Write).2.Conn.writes
      = c.Conn.writes ++ (if c.admitted p = true then [p] else []) := by
  by_cases h : c.admitted p = true
  · rw [(conn.do_admitted c p NetConn.Write h).2]
    simp [NetConn.Write, h]
  · rw [(conn.do_not_admitted c p NetConn.Write (by simpa using h)).2]
    simp [h]

/-! ## Facts about the pass of `Write` over the chunks -/

theorem conn.ErrFree_of_FullyWritten :
    ∀ (chs : List (List Byte)) (c : conn), c.FullyWritten chs → c.ErrFree chs := by
  intro chs
  induction chs with
  | nil => intro c _; trivial
  | cons ch rest ih =>
    intro c h
    obtain ⟨ha, _, he, hr⟩ := h
    refine ⟨?_, ih _ hr⟩
    rw [(conn.do_admitted c ch NetConn.Write ha).1]
    exact he

theorem conn.afterWrites_writes :
    ∀ (chs : List (List Byte)) (c : conn), c.ErrFree chs →
      (c.afterWrites chs).Conn.writes = c.Conn.writes ++ chs := by
  intro chs
  induction chs with
  | nil => intro c _; simp [conn.afterWrites]
  | cons ch rest ih =>
    intro c h
    have ha := conn.admitted_of_err_none c ch NetConn.Write h.1
    have h2 := ih _ h.2
    simp only [conn.afterWrites, List.foldl_cons] at h2 ⊢
    rw [h2, conn.do_writes, if_pos ha]
    simp

/-- The pass of `Write` always hands the wrapped stream a leading part of the
chunk list, in order, and every chunk of it once. -/
theorem conn.runWrite_writes :
    ∀ (chs : List (List Byte)) (s : WriteState),
      ∃ j, j ≤ chs.length ∧
        (runChunks conn.writeChunk chs s).c.Conn.writes = s.c.Conn.writes ++ chs.take j := by
  intro chs
  induction chs with
  | nil => intro s; exact ⟨0, le_refl _, by simp [runChunks]⟩
  | cons ch rest ih =>
    intro s
    have hw : (conn.writeChunk ch s).2.c.Conn.writes
        = s.c.Conn.writes ++ (if s.c.admitted ch = true then [ch] else []) := by
      simp only [conn.writeChunk]
      exact conn.do_writes s.c ch
    by_cases hv : (conn.writeChunk ch s).1 = false
    · simp only [runChunks, hv, if_true]
      by_cases ha : s.c.admitted ch = true
      · exact ⟨1, by simp, by rw [hw]; simp [ha]⟩
      · exact ⟨0, by simp, by rw [hw]; simp [ha]⟩
    · rw [runChunks, if_neg hv]
      have herr : (s.c.do ch NetConn.Write).1.err = none := by
        simpa [conn.writeChunk] using hv
      have ha := conn.admitted_of_err_none s.c ch NetConn.Write herr
      obtain ⟨j, hj, hjw⟩ := ih (conn.writeChunk ch s).2
      exact ⟨j + 1, by simpa using hj, by rw [hjw, hw]; simp [ha]⟩

/-- A pass free of errors runs through: the pass over `pre ++ rest` is the pass
over `rest` started in the state reached by running the callback on all of
`pre`. -/
theorem conn.runWrite_append (rest : List (List Byte)) :
    ∀ (pre : List (List Byte)) (s : WriteState), s.c.ErrFree pre →
      runChunks conn.writeChunk (pre ++ rest) s
        = runChunks conn.writeChunk rest (conn.writeThrough s pre) := by
  intro pre
  induction pre with
  | nil => intro s _; simp [conn.writeThrough]
  | cons ch pre ih =>
    intro s h
    have hv : ¬ (conn.writeChunk ch s).1 = false := by
      simp [conn.writeChunk, h.1]
    have h2 := ih (conn.writeChunk ch s).2 (by simpa [conn.writeChunk] using h.2)
    rw [List.cons_append, runChunks, if_neg hv, h2]
    simp [conn.writeThrough]

theorem conn.writeThrough_c :
    ∀ (pre : List (List Byte)) (s : WriteState),
      (conn.writeThrough s pre).c = s.c.afterWrites pre := by
  intro pre
  induction pre with
  | nil => intro s; simp [conn.writeThrough, conn.afterWrites]
  | cons ch pre ih =>
    intro s
    have h := ih (conn.writeChunk ch s).2
    simp only [conn.writeThrough, conn.afterWrites, List.foldl_cons] at h ⊢
    rw [h]
    simp [conn.writeChunk]

theorem wrapInt_of_range (x : Int) (h0 : 0 ≤ x) (h1 : x < 2 ^ 63) : wrapInt x = x := by
  unfold wrapInt
  omega

theorem conn.writeThrough_n_err :
    ∀ (pre : List (List Byte)) (s : WriteState), s.c.FullyWritten pre → 0 ≤ s.n →
      s.n + ((pre.map List.length).sum : Nat) < 2 ^ 63 → s.err = none →
      (conn.writeThrough s pre).n = s.n + ((pre.map List.length).sum : Nat) ∧
      (conn.writeThrough s pre).err = none := by
  intro pre
  induction pre with
  | nil => intro s _ _ _ he; simp [conn.writeThrough, he]
  | cons ch pre ih =>
    intro s h h0 h1 he
    obtain ⟨ha, hn, hnil, hr⟩ := h
    have hd := (conn.do_admitted s.c ch NetConn.Write ha).1
    simp only [List.map_cons, List.sum_cons, Nat.cast_add] at h1 ⊢
    have hn2 : (conn.writeChunk ch s).2.n = s.n + (ch.length : Int) := by
      simp only [conn.writeChunk, hd, hn, addInt]
      apply wrapInt_of_range <;> omega
    have h2 := ih (conn.writeChunk ch s).2 (by simpa [conn.writeChunk] using hr)
      (by rw [hn2]; omega) (by rw [hn2]; omega) (by simp [conn.writeChunk, hd, hnil])
    simp only [conn.writeThrough, List.foldl_cons] at h2 ⊢
    rw [h2.1, h2.2, hn2]
    exact ⟨by ring, rfl⟩

/-! ## Setters and getters -/

/-- Claim C1.  For every negative rate `r`, each of `Limiter.SetGlobalLimit`,
`Limiter.SetLocalLimit` and `Conn.SetLimit` (on the connection at any address of
a Limiter, and on any connection value) returns `ErrInvalidLimit` and hands back
the very state it was called on, so the global limit, the local limit, the live
set and the limit of every connection are what they were before. -/
theorem C1_negative_rate_rejected (r : rate.Limit) (hr : r < 0) (l : Limiter) (a : Nat)
    (c : conn) :
    l.SetGlobalLimit r = (some Error.ErrInvalidLimit, l) ∧
    l.SetLocalLimit r = (some Error.ErrInvalidLimit, l) ∧
    l.connSetLimit a r = (some Error.ErrInvalidLimit, l) ∧
    c.SetLimit r = (some Error.ErrInvalidLimit, c) ∧
    (l.SetGlobalLimit r).2.GlobalLimit = l.GlobalLimit ∧
    (l.SetLocalLimit r).2.LocalLimit = l.LocalLimit ∧
    (l.SetLocalLimit r).2.conns = l.conns ∧
    (∀ b, (l.SetLocalLimit r).2.connLimit b = l.connLimit b) ∧
    (∀ b, (l.connSetLimit a r).2.connLimit b = l.connLimit b) ∧
    (c.SetLimit r).2.Limit = c.Limit := by
  have h1 : l.SetGlobalLimit r = (some Error.ErrInvalidLimit, l) := by
    simp [Limiter.SetGlobalLimit, hr]
  have h2 : l.SetLocalLimit r = (some Error.ErrInvalidLimit, l) := by
    simp [Limiter.SetLocalLimit, hr]
  have h3 := Limiter.connSetLimit_neg l a r hr
  have h4 := conn.SetLimit_neg c r hr
  refine ⟨h1, h2, h3, h4, ?_, ?_, ?_, ?_, ?_, ?_⟩ <;> simp [h1, h2, h3, h4]

/-- Witness of C1: the rate -1 on the ten connection Limiter of the test file and
on a test connection. -/
theorem C1_negative_rate_rejected_witness :
    ((-1 : rate.Limit) < 0) ∧
    tenConns.SetGlobalLimit (-1) = (some Error.ErrInvalidLimit, tenConns) ∧
    tenConns.SetLocalLimit (-1) = (some Error.ErrInvalidLimit, tenConns) ∧
    tenConns.connSetLimit 3 (-1) = (some Error.ErrInvalidLimit, tenConns) ∧
    testConn.SetLimit (-1) = (some Error.ErrInvalidLimit, testConn) :=
  have h := C1_negative_rate_rejected (-1) (by norm_num) tenConns 3 testConn
  ⟨by norm_num, h.1, h.2.1, h.2.2.1, h.2.2.2.1⟩

/-- Claim C2.  For every rate `r` that is not negative, each setter returns no
error and its getter then returns `r`: `GlobalLimit` after `SetGlobalLimit`,
`LocalLimit` after `SetLocalLimit`, and `Limit` of the connection after
`Conn.SetLimit` (on the connection at any address of a Limiter, and on any
connection value). -/
theorem C2_setter_then_getter (r : rate.Limit) (hr : 0 ≤ r) (l : Limiter) (a : Nat)
    (c : conn) :
    ((l.SetGlobalLimit r).1 = none ∧ (l.SetGlobalLimit r).2.GlobalLimit = r) ∧
    ((l.SetLocalLimit r).1 = none ∧ (l.SetLocalLimit r).2.LocalLimit = r) ∧
    ((l.connSetLimit a r).1 = none ∧ (l.connSetLimit a r).2.connLimit a = r) ∧
    ((c.SetLimit r).1 = none ∧ (c.SetLimit r).2.Limit = r) := by
  have hn : ¬ r < 0 := not_lt.mpr hr
  refine ⟨?_, ?_, ?_, ?_⟩
  · simp [Limiter.SetGlobalLimit, hn, Limiter.GlobalLimit, rate.Limiter.Limit,
      rate.Limiter.SetLimitAt]
  · rw [Limiter.SetLocalLimit_nonneg l r hr]
    exact ⟨rfl, (Limiter.setAll_spec r hr _ _).2.1⟩
  · refine ⟨?_, Limiter.connSetLimit_self l a r hr⟩
    simp [Limiter.connSetLimit, conn.SetLimit, hn]
  · simp [conn.SetLimit, hn, conn.Limit, rate.Limiter.Limit, rate.Limiter.SetLimitAt]

/-- Witness of C2: the zero rate and the unbounded rate, on the ten connection
Limiter of the test file and on a test connection. -/
theorem C2_setter_then_getter_witness :
    (((0 : rate.Limit) ≤ 0) ∧
      (tenConns.SetGlobalLimit 0).2.GlobalLimit = 0 ∧
      (tenConns.SetLocalLimit 0).2.LocalLimit = 0 ∧
      (tenConns.connSetLimit 3 0).2.connLimit 3 = 0 ∧
      (testConn.SetLimit 0).2.Limit = 0) ∧
    (((0 : rate.Limit) ≤ rate.Inf) ∧
      (tenConns.SetGlobalLimit rate.Inf).2.GlobalLimit = rate.Inf ∧
      (tenConns.SetLocalLimit rate.Inf).2.LocalLimit = rate.Inf ∧
      (tenConns.connSetLimit 3 rate.Inf).2.connLimit 3 = rate.Inf ∧
      (testConn.SetLimit rate.Inf).2.Limit = rate.Inf) :=
  have hInf : (0 : rate.Limit) ≤ rate.Inf := by norm_num [rate.Inf]
  have h := C2_setter_then_getter 0 (le_refl 0) tenConns 3 testConn
  have h2 := C2_setter_then_getter rate.Inf hInf tenConns 3 testConn
  ⟨⟨le_refl 0, h.1.2, h.2.1.2, h.2.2.1.2, h.2.2.2.2⟩,
   ⟨hInf, h2.1.2, h2.2.1.2, h2.2.2.1.2, h2.2.2.2.2⟩⟩

/-- Claim C3.  For every Limiter state, whatever the number of live connections,
and every rate `r` that is not negative: `SetLocalLimit r` returns no error and,
once it has returned, every connection that was in the live set when the call
began reports `Limit() = r`. -/
theorem C3_local_limit_propagates (l : Limiter) (r : rate.Limit) (hr : 0 ≤ r) :
    (l.SetLocalLimit r).1 = none ∧
    ∀ a ∈ l.conns, (l.SetLocalLimit r).2.connLimit a = r := by
  rw [Limiter.SetLocalLimit_nonneg l r hr]
  refine ⟨rfl, ?_⟩
  intro a ha
  have h := (Limiter.setAll_spec r hr ({ l with localLimit := r } : Limiter).conns
    { l with localLimit := r }).2.2.2 a
  simp only at h
  rw [h]
  simp [ha]

/-- Witness of C3, the scenario of `TestLimiterLocalLimitPropagation`: ten
connections wrapped at local limit 123, then `SetLocalLimit(321)`; all ten
connections report 321. -/
theorem C3_local_limit_propagates_witness :
    ((0 : rate.Limit) ≤ 321) ∧
    tenConns.conns = [0, 1, 2, 3, 4, 5, 6, 7, 8, 9] ∧
    (∀ a ∈ tenConns.conns, tenConns.connLimit a = 123) ∧
    (tenConns.SetLocalLimit 321).1 = none ∧
    ∀ a ∈ tenConns.conns, (tenConns.SetLocalLimit 321).2.connLimit a = 321 :=
  ⟨by norm_num, by decide, by decide,
   (C3_local_limit_propagates tenConns 321 (by norm_num)).1,
   (C3_local_limit_propagates tenConns 321 (by norm_num)).2⟩

/-! ## Read and Write -/

theorem rate.zero_ne_Inf : ¬ ((0 : ℚ) = rate.Inf) := by norm_num [rate.Inf]

theorem conn.Write_eq_runChunks (c : conn) (p : List Byte) :
    c.Write p =
      (((runChunks conn.writeChunk (chunks chunkSize.toNat p) { n := 0, err := none, c := c }).n,
        (runChunks conn.writeChunk (chunks chunkSize.toNat p) { n := 0, err := none, c := c }).err),
       (runChunks conn.writeChunk (chunks chunkSize.toNat p) { n := 0, err := none, c := c }).c) := by
  simp only [conn.Write]
  rw [forEachChunk_eq_runChunks p chunkSize (by decide)]

/-- A budget of rate zero whose banked tokens do not cover the request refuses it:
the transfer is not admitted. -/
theorem conn.not_admitted_of_zero_rate_spent (c : conn) (p : List Byte)
    (hrate : c.localLimiter.limit = 0) (htok : c.localLimiter.tokens < p.length) :
    c.admitted p = false := by
  have hadv : c.localLimiter.advance (c.clock.Now).1 - (p.length : Int) < 0 := by
    simp only [rate.Limiter.advance, rate.tokensFromDuration, hrate, le_refl, if_true,
      add_zero]
    have : ((p.length : Int) : ℚ) = (p.length : ℚ) := by push_cast; rfl
    split <;> linarith
  simp only [conn.admitted, Bool.and_eq_false_iff]
  right
  simp only [rate.Limiter.ReserveN, hrate, rate.zero_ne_Inf, if_false, rate.Reservation.OK]
  rw [if_neg]
  intro h
  rcases h.2 with h2 | h2
  · simp only [Nat.cast_inj] at hadv
    linarith
  · exact absurd h2 (lt_irrefl _)

theorem chunks_two_bytes : chunks chunkSize.toNat ([1, 2] : List Byte) = [[1, 2]] := by
  decide

theorem chunks_replicate_1025 :
    chunks chunkSize.toNat (List.replicate 1025 (0 : Byte)) = [List.replicate 1024 0, [0]] := by
  simp [chunks, chunkSize, List.take_replicate, List.drop_replicate, List.range_succ]

/-- Claim C4, evaluated on a freshly made connection with local rate zero and an
unbounded global limiter, as `TestConnErrUnfulfillableLocalReservation` builds
it.  The bucket of the local limiter still holds its initial burst, so a `Read`
into a one byte buffer and a `Write` of one byte are both admitted: the wrapped
stream is called once, one byte is transferred and no error is returned.  A
`Write` of 1025 bytes does return `ErrUnfulfillableReservation`, but only for its
second chunk: the first 1024 bytes have been handed to the stream and are
counted. -/
theorem C4_fresh_zero_rate_connection_transfers :
    zeroConn.Limit = 0 ∧ zeroConn.globalLimiter.Limit = rate.Inf ∧
    (zeroConn.Read [5]).1.n = 1 ∧ (zeroConn.Read [5]).1.err = none ∧
    (zeroConn.Read [5]).2.Conn.reads = [[5]] ∧
    (zeroConn.Write [5]).1 = (1, none) ∧
    (zeroConn.Write [5]).2.Conn.writes = [[5]] ∧
    (zeroConn.Write (List.replicate 1025 0)).1
      = (1024, some Error.ErrUnfulfillableReservation) ∧
    (zeroConn.Write (List.replicate 1025 0)).2.Conn.writes = [List.replicate 1024 0] := by
  refine ⟨rfl, rfl, ?_, ?_, ?_, ?_, ?_, ?_, ?_⟩
  · simp [zeroConn, conn.Read, conn.do, wrapConn, minLen, chunkSize, rate.NewLimiter,
      rate.Limiter.ReserveN, rate.Reservation.OK, Clock.Now, testClock, rate.Limiter.advance,
      rate.tokensFromDuration, NetConn.Read, noopConn, rate.zero_ne_Inf]
  · simp [zeroConn, conn.Read, conn.do, wrapConn, minLen, chunkSize, rate.NewLimiter,
      rate.Limiter.ReserveN, rate.Reservation.OK, Clock.Now, testClock, rate.Limiter.advance,
      rate.tokensFromDuration, NetConn.Read, noopConn, rate.zero_ne_Inf]
  · simp [zeroConn, conn.Read, conn.do, wrapConn, minLen, chunkSize, rate.NewLimiter,
      rate.Limiter.ReserveN, rate.Reservation.OK, Clock.Now, testClock, rate.Limiter.advance,
      rate.tokensFromDuration, NetConn.Read, noopConn, rate.zero_ne_Inf]
  · simp [zeroConn, conn.Write, forEachChunk, forEachChunk.loop, conn.writeChunk, conn.do,
      wrapConn, chunkSize, rate.NewLimiter, rate.Limiter.ReserveN, rate.Reservation.OK,
      Clock.Now, testClock, rate.Limiter.advance, rate.tokensFromDuration, NetConn.Write,
      noopConn, rate.zero_ne_Inf, addInt, wrapInt]
  · simp [zeroConn, conn.Write, forEachChunk, forEachChunk.loop, conn.writeChunk, conn.do,
      wrapConn, chunkSize, rate.NewLimiter, rate.Limiter.ReserveN, rate.Reservation.OK,
      Clock.Now, testClock, rate.Limiter.advance, rate.tokensFromDuration, NetConn.Write,
      noopConn, rate.zero_ne_Inf, addInt, wrapInt]
  · rw [conn.Write_eq_runChunks, chunks_replicate_1025]
    norm_num [runChunks, zeroConn, conn.writeChunk, conn.do, wrapConn, chunkSize,
      rate.NewLimiter, rate.Limiter.ReserveN, rate.Reservation.OK, Clock.Now, Clock.Sleep,
      testClock, rate.Limiter.advance, rate.tokensFromDuration, NetConn.Write, noopConn,
      rate.zero_ne_Inf, addInt, wrapInt]
  · rw [conn.Write_eq_runChunks, chunks_replicate_1025]
    norm_num [runChunks, zeroConn, conn.writeChunk, conn.do, wrapConn, chunkSize,
      rate.NewLimiter, rate.Limiter.ReserveN, rate.Reservation.OK, Clock.Now, Clock.Sleep,
      testClock, rate.Limiter.advance, rate.tokensFromDuration, NetConn.Write, noopConn,
      rate.zero_ne_Inf, addInt, wrapInt]

/-- Claim C5.  For every connection and every buffer `p`, with `p` cut into the
consecutive chunks `p[0:C]`, `p[C:2C]`, ...:
(1) `Write` hands the wrapped stream a leading part of the chunk list, in order
and each chunk once;
(2) when the chunks before some chunk come back without error and that chunk
fails, in admission or in the write of the stream, `Write` ends in the state
reached right after that chunk and returns its error: the stream was handed the
chunks before it, the failing chunk itself exactly when it was admitted, and
nothing after it;
(3) when every chunk is admitted and the stream writes each chunk in full
without error, the stream was handed exactly the chunks, which put together are
`p`, and `Write` returns the length of `p` and no error. -/
theorem C5_write_hands_chunks_in_order (c : conn) (p : List Byte) :
    (∃ j, j ≤ (chunks chunkSize.toNat p).length ∧
        (c.Write p).2.Conn.writes = c.Conn.writes ++ (chunks chunkSize.toNat p).take j) ∧
    (∀ (pre post : List (List Byte)) (ch : List Byte),
        chunks chunkSize.toNat p = pre ++ ch :: post → c.ErrFree pre →
        ((c.afterWrites pre).do ch NetConn.Write).1.err ≠ none →
        (c.Write p).2 = ((c.afterWrites pre).do ch NetConn.Write).2 ∧
        (c.Write p).1.2 = ((c.afterWrites pre).do ch NetConn.Write).1.err ∧
        (c.Write p).2.Conn.writes = c.Conn.writes ++ pre ++
          (if (c.afterWrites pre).admitted ch = true then [ch] else [])) ∧
    (c.FullyWritten (chunks chunkSize.toNat p) → (p.length : Int) < 2 ^ 63 →
        (c.Write p).1 = ((p.length : Int), none) ∧
        (c.Write p).2.Conn.writes = c.Conn.writes ++ chunks chunkSize.toNat p ∧
        (chunks chunkSize.toNat p).flatten = p) := by
  rw [conn.Write_eq_runChunks]
  refine ⟨?_, ?_, ?_⟩
  · exact conn.runWrite_writes _ _
  · intro pre post ch hch hpre herr
    rw [hch, conn.runWrite_append (ch :: post) pre _ hpre]
    have hc := conn.writeThrough_c pre { n := 0, err := none, c := c }
    simp only at hc
    have hv : (conn.writeChunk ch (conn.writeThrough { n := 0, err := none, c := c } pre)).1
        = false := by
      simpa [conn.writeChunk, hc] using herr
    simp only [runChunks, hv, if_true]
    refine ⟨?_, ?_, ?_⟩
    · simp [conn.writeChunk, hc]
    · simp [conn.writeChunk, hc]
    · simp only [conn.writeChunk, hc]
      rw [conn.do_writes, conn.afterWrites_writes pre c hpre]
  · intro hfull hlen
    have hsum := chunks_sum_length chunkSize.toNat (by decide) p
    have hef := conn.ErrFree_of_FullyWritten _ c hfull
    have h := conn.runWrite_append [] (chunks chunkSize.toNat p)
      { n := 0, err := none, c := c } hef
    rw [List.append_nil] at h
    rw [h]
    have hne := conn.writeThrough_n_err (chunks chunkSize.toNat p)
      { n := 0, err := none, c := c } hfull (le_refl _) (by simp only [hsum]; omega) rfl
    have hc := conn.writeThrough_c (chunks chunkSize.toNat p) { n := 0, err := none, c := c }
    simp only [runChunks, hne.1, hne.2, hc, hsum, zero_add]
    exact ⟨trivial, conn.afterWrites_writes _ c hef, chunks_flatten _ (by decide) p⟩

theorem chunks_replicate_2049 :
    chunks chunkSize.toNat (List.replicate 2049 (0 : Byte))
      = [List.replicate 1024 0] ++ List.replicate 1024 0 :: [[0]] := by
  simp [chunks, chunkSize, List.take_replicate, List.drop_replicate, List.range_succ]

theorem failLaterConn_first_chunk (nn : Int) :
    (failLaterConn nn).FullyWritten [List.replicate 1024 (0 : Byte)] := by
  simp [conn.FullyWritten, conn.admitted, failLaterConn, failLaterStream, wrapConn,
    rate.NewLimiter, rate.Limiter.ReserveN, rate.Reservation.OK, NetConn.Write]

theorem failLaterConn_second_admitted (nn : Int) :
    ((failLaterConn nn).afterWrites [List.replicate 1024 (0 : Byte)]).admitted
      (List.replicate 1024 (0 : Byte)) = true := by
  simp [conn.afterWrites, conn.admitted, conn.do, failLaterConn, failLaterStream, wrapConn,
    rate.NewLimiter, rate.Limiter.ReserveN, rate.Reservation.OK, NetConn.Write]

theorem failLaterConn_second_fails (nn : Int) :
    (((failLaterConn nn).afterWrites [List.replicate 1024 (0 : Byte)]).Conn.Write
      (List.replicate 1024 (0 : Byte))).1 =
      { n := nn, err := some (Error.other 0), buf := List.replicate 1024 (0 : Byte) } := by
  simp [conn.afterWrites, conn.do, failLaterConn, failLaterStream, wrapConn,
    rate.NewLimiter, rate.Limiter.ReserveN, rate.Reservation.OK, NetConn.Write]

theorem failLaterConn_second_do_fails (nn : Int) :
    (((failLaterConn nn).afterWrites [List.replicate 1024 (0 : Byte)]).do
      (List.replicate 1024 (0 : Byte)) NetConn.Write).1.err ≠ none := by
  rw [(conn.do_admitted _ _ NetConn.Write (failLaterConn_second_admitted nn)).1,
    failLaterConn_second_fails]
  simp

/-- Witness of C5.  On the noop connection of the tests a buffer of 1025 bytes is
written in full as two chunks; on a stream whose first write fails, `Write` of a
two byte buffer stops after handing over that one chunk; on a stream whose
second write fails, `Write` of 2049 bytes (three chunks) hands over the first two
chunks and not the third. -/
theorem C5_write_hands_chunks_in_order_witness :
    (testConn.FullyWritten (chunks chunkSize.toNat (List.replicate 1025 (0 : Byte))) ∧
      (((List.replicate 1025 (0 : Byte)).length : Int) < 2 ^ 63) ∧
      (testConn.Write (List.replicate 1025 0)).1
        = ((((List.replicate 1025 (0 : Byte)).length : Nat) : Int), none) ∧
      (testConn.Write (List.replicate 1025 0)).2.Conn.writes
        = testConn.Conn.writes ++ chunks chunkSize.toNat (List.replicate 1025 (0 : Byte))) ∧
    (chunks chunkSize.toNat ([1, 2] : List Byte) = [] ++ [1, 2] :: [] ∧
      shortConn.ErrFree [] ∧
      ((shortConn.afterWrites []).do [1, 2] NetConn.Write).1.err ≠ none ∧
      (shortConn.Write [1, 2]).1.2 = ((shortConn.afterWrites []).do [1, 2] NetConn.Write).1.err) ∧
    (chunks chunkSize.toNat (List.replicate 2049 (0 : Byte))
        = [List.replicate 1024 0] ++ List.replicate 1024 0 :: [[0]] ∧
      (failLaterConn 0).ErrFree [List.replicate 1024 (0 : Byte)] ∧
      (((failLaterConn 0).afterWrites [List.replicate 1024 (0 : Byte)]).do
        (List.replicate 1024 (0 : Byte)) NetConn.Write).1.err ≠ none ∧
      ((failLaterConn 0).afterWrites [List.replicate 1024 (0 : Byte)]).admitted
        (List.replicate 1024 (0 : Byte)) = true ∧
      ((failLaterConn 0).Write (List.replicate 2049 0)).2.Conn.writes
        = [List.replicate 1024 0, List.replicate 1024 0]) :=
  have hfw : testConn.FullyWritten (chunks chunkSize.toNat (List.replicate 1025 (0 : Byte))) := by
    rw [chunks_replicate_1025]
    simp [conn.FullyWritten, conn.admitted, testConn, wrapConn, rate.NewLimiter,
      rate.Limiter.ReserveN, rate.Reservation.OK, NetConn.Write, noopConn, conn.do]
  have hlen : (((List.replicate 1025 (0 : Byte)).length : Nat) : Int) < 2 ^ 63 := by
    simp
  have herr : ((shortConn.afterWrites []).do [1, 2] NetConn.Write).1.err ≠ none := by
    simp [conn.afterWrites, shortConn, wrapConn, rate.NewLimiter, rate.Limiter.ReserveN,
      rate.Reservation.OK, NetConn.Write, shortWriteConn, conn.do]
  have h1 := (C5_write_hands_chunks_in_order testConn (List.replicate 1025 0)).2.2 hfw hlen
  have h2 := (C5_write_hands_chunks_in_order shortConn [1, 2]).2.1 [] [] [1, 2]
    chunks_two_bytes trivial herr
  have hef : (failLaterConn 0).ErrFree [List.replicate 1024 (0 : Byte)] :=
    conn.ErrFree_of_FullyWritten _ _ (failLaterConn_first_chunk 0)
  have h3 := (C5_write_hands_chunks_in_order (failLaterConn 0) (List.replicate 2049 0)).2.1
    [List.replicate 1024 0] [[0]] (List.replicate 1024 0) chunks_replicate_2049 hef
    (failLaterConn_second_do_fails 0)
  ⟨⟨hfw, hlen, h1.1, h1.2.1⟩, ⟨chunks_two_bytes, trivial, herr, h2.2.1⟩,
   ⟨chunks_replicate_2049, hef, failLaterConn_second_do_fails 0,
    failLaterConn_second_admitted 0,
    by
      rw [h3.2.2, if_pos (failLaterConn_second_admitted 0)]
      simp [failLaterConn, failLaterStream, wrapConn]⟩⟩

/-- Counterexample to C6 as stated.  The buffer `[1, 2]` is one chunk, so the
failing chunk is chunk 1 and no chunk precedes it.  The chunk is admitted and the
write of the stream returns an error together with the count 1.  `Write` returns
that error with the count 1, not with the sum of the lengths of the chunks
before, which is 0. -/
theorem C6_counterexample :
    chunks chunkSize.toNat ([1, 2] : List Byte) = [] ++ [1, 2] :: [] ∧
    shortConn.FullyWritten [] ∧
    (shortConn.afterWrites []).admitted [1, 2] = true ∧
    ((shortConn.afterWrites []).Conn.Write [1, 2]).1.err = some (Error.other 0) ∧
    (shortConn.Write [1, 2]).1 = (1, some (Error.other 0)) ∧
    (shortConn.Write [1, 2]).1 ≠
      (((([] : List (List Byte)).map List.length).sum : Nat), some (Error.other 0)) := by
  refine ⟨chunks_two_bytes, trivial, ?_, ?_, ?_, ?_⟩ <;>
  simp [conn.afterWrites, conn.admitted, shortConn, wrapConn, rate.NewLimiter,
    rate.Limiter.ReserveN, rate.Reservation.OK, NetConn.Write, shortWriteConn, conn.do,
    conn.Write, forEachChunk, forEachChunk.loop, conn.writeChunk, chunkSize, Clock.Now,
    Clock.Sleep, addInt, wrapInt]

/-- Claim C6, amended.  For every connection and every buffer shorter than 2^63
bytes, cut into chunks `pre ++ ch :: post`: if the chunks of `pre` are admitted
and written in full without error, and `ch` is admitted and the write of the
stream on it returns the error `e`, then `Write` returns `e` together with the
sum of the lengths of the chunks of `pre` plus the count the failing write
itself returned (added as Go integers).  When that count is zero the result is
the sum of the lengths of the chunks written before. -/
theorem C6_write_count_on_stream_error (c : conn) (p : List Byte)
    (pre post : List (List Byte)) (ch : List Byte) (e : Error)
    (hlen : (p.length : Int) < 2 ^ 63)
    (hch : chunks chunkSize.toNat p = pre ++ ch :: post)
    (hpre : c.FullyWritten pre)
    (hadm : (c.afterWrites pre).admitted ch = true)
    (herr : ((c.afterWrites pre).Conn.Write ch).1.err = some e) :
    (c.Write p).1 = (addInt (((pre.map List.length).sum : Nat) : Int)
                        ((c.afterWrites pre).Conn.Write ch).1.n, some e) ∧
    (((c.afterWrites pre).Conn.Write ch).1.n = 0 →
      (c.Write p).1 = ((((pre.map List.length).sum : Nat) : Int), some e)) := by
  have hsum := chunks_sum_length chunkSize.toNat (by decide) p
  rw [hch] at hsum
  simp only [List.map_append, List.sum_append, List.map_cons, List.sum_cons] at hsum
  have hef := conn.ErrFree_of_FullyWritten _ c hpre
  have hc := conn.writeThrough_c pre { n := 0, err := none, c := c }
  simp only at hc
  have hne := conn.writeThrough_n_err pre { n := 0, err := none, c := c } hpre (le_refl _)
    (by simp only; omega) rfl
  simp only [zero_add] at hne
  have hd := (conn.do_admitted (c.afterWrites pre) ch NetConn.Write hadm).1
  have hv : (conn.writeChunk ch (conn.writeThrough { n := 0, err := none, c := c } pre)).1
      = false := by
    simp [conn.writeChunk, hc, hd, herr]
  have hmain : (c.Write p).1 = (addInt (((pre.map List.length).sum : Nat) : Int)
      ((c.afterWrites pre).Conn.Write ch).1.n, some e) := by
    rw [conn.Write_eq_runChunks, hch, conn.runWrite_append (ch :: post) pre _ hef]
    simp only [runChunks, hv, if_true]
    simp [conn.writeChunk, hc, hd, herr, hne.1]
  refine ⟨hmain, ?_⟩
  intro h0
  rw [hmain, h0, addInt, add_zero, wrapInt_of_range _ (by omega) (by omega)]

/-- Witness of C6 as amended, on a buffer of 2049 bytes, which is three chunks.
The first chunk of 1024 bytes is written in full and the write of the second
chunk fails, so the failing chunk is chunk 2 and one chunk follows it.  When the
failing write reports 5 bytes, `Write` returns the error with the count 1029;
when it reports no byte, `Write` returns the error with the count 1024, the
length of the chunk written before. -/
theorem C6_write_count_on_stream_error_witness :
    ((((List.replicate 2049 (0 : Byte)).length : Nat) : Int) < 2 ^ 63) ∧
    (chunks chunkSize.toNat (List.replicate 2049 (0 : Byte))
      = [List.replicate 1024 0] ++ List.replicate 1024 0 :: [[0]]) ∧
    ((failLaterConn 5).FullyWritten [List.replicate 1024 (0 : Byte)] ∧
      ((failLaterConn 5).afterWrites [List.replicate 1024 (0 : Byte)]).admitted
        (List.replicate 1024 (0 : Byte)) = true ∧
      (((failLaterConn 5).afterWrites [List.replicate 1024 (0 : Byte)]).Conn.Write
        (List.replicate 1024 (0 : Byte))).1.err = some (Error.other 0) ∧
      ((failLaterConn 5).Write (List.replicate 2049 0)).1 = (1029, some (Error.other 0))) ∧
    ((failLaterConn 0).FullyWritten [List.replicate 1024 (0 : Byte)] ∧
      ((failLaterConn 0).afterWrites [List.replicate 1024 (0 : Byte)]).admitted
        (List.replicate 1024 (0 : Byte)) = true ∧
      (((failLaterConn 0).afterWrites [List.replicate 1024 (0 : Byte)]).Conn.Write
        (List.replicate 1024 (0 : Byte))).1.err = some (Error.other 0) ∧
      (((failLaterConn 0).afterWrites [List.replicate 1024 (0 : Byte)]).Conn.Write
        (List.replicate 1024 (0 : Byte))).1.n = 0 ∧
      ((failLaterConn 0).Write (List.replicate 2049 0)).1 = (1024, some (Error.other 0))) :=
  have hlen : (((List.replicate 2049 (0 : Byte)).length : Nat) : Int) < 2 ^ 63 := by simp
  have herr5 : (((failLaterConn 5).afterWrites [List.replicate 1024 (0 : Byte)]).Conn.Write
      (List.replicate 1024 (0 : Byte))).1.err = some (Error.other 0) := by
    rw [failLaterConn_second_fails]
  have herr0 : (((failLaterConn 0).afterWrites [List.replicate 1024 (0 : Byte)]).Conn.Write
      (List.replicate 1024 (0 : Byte))).1.err = some (Error.other 0) := by
    rw [failLaterConn_second_fails]
  have hn0 : (((failLaterConn 0).afterWrites [List.replicate 1024 (0 : Byte)]).Conn.Write
      (List.replicate 1024 (0 : Byte))).1.n = 0 := by
    rw [failLaterConn_second_fails]
  have h5 := (C6_write_count_on_stream_error (failLaterConn 5) (List.replicate 2049 0)
    [List.replicate 1024 0] [[0]] (List.replicate 1024 0) (Error.other 0) hlen
    chunks_replicate_2049 (failLaterConn_first_chunk 5) (failLaterConn_second_admitted 5)
    herr5).1
  have h0 := (C6_write_count_on_stream_error (failLaterConn 0) (List.replicate 2049 0)
    [List.replicate 1024 0] [[0]] (List.replicate 1024 0) (Error.other 0) hlen
    chunks_replicate_2049 (failLaterConn_first_chunk 0) (failLaterConn_second_admitted 0)
    herr0).2 hn0
  ⟨hlen, chunks_replicate_2049,
   ⟨failLaterConn_first_chunk 5, failLaterConn_second_admitted 5, herr5,
    by rw [h5, failLaterConn_second_fails]; simp [addInt, wrapInt]⟩,
   ⟨failLaterConn_first_chunk 0, failLaterConn_second_admitted 0, herr0, hn0,
    by rw [h0]; simp⟩⟩

theorem minLen_eq (n : Nat) : minLen n = min 1024 n := by
  simp only [minLen, chunkSize]
  omega

/-- Claim C7.  For every connection and every buffer `p`, `Read(p)` works on the
slice `q = p[0:min(C, len(p))]` with `C = 1024`, which is never longer than `C`.
It reads the clock once and makes one admission attempt, for the length of `q`.
If the attempt is admitted, the read of the wrapped stream is called exactly
once, on `q`, and `Read` returns the count and the error of that call unchanged;
each limiter is left as one reservation of the length of `q` leaves it.  If the
attempt is not admitted, `Read` returns zero and `ErrUnfulfillableReservation`
and the wrapped stream is not touched. -/
theorem C7_read_single_clipped_attempt (c : conn) (p : List Byte) :
    (p.take (min 1024 p.length)).length = min 1024 p.length ∧
    (p.take (min 1024 p.length)).length ≤ 1024 ∧
    (c.Read p).2.clock.nows = c.clock.nows + 1 ∧
    (c.admitted (p.take (min 1024 p.length)) = true →
      (c.Read p).1.n = (c.Conn.Read (p.take (min 1024 p.length))).1.n ∧
      (c.Read p).1.err = (c.Conn.Read (p.take (min 1024 p.length))).1.err ∧
      (c.Read p).2.Conn = (c.Conn.Read (p.take (min 1024 p.length))).2 ∧
      (c.Read p).2.Conn.reads = c.Conn.reads ++ [p.take (min 1024 p.length)] ∧
      (c.Read p).2.globalLimiter = (c.globalLimiter.ReserveN (c.clock.Now).1
          ((p.take (min 1024 p.length)).length : Nat)).2 ∧
      (c.Read p).2.localLimiter = (c.localLimiter.ReserveN (c.clock.Now).1
          ((p.take (min 1024 p.length)).length : Nat)).2) ∧
    (c.admitted (p.take (min 1024 p.length)) = false →
      (c.Read p).1.n = 0 ∧
      (c.Read p).1.err = some Error.ErrUnfulfillableReservation ∧
      (c.Read p).2.Conn = c.Conn) := by
  have hlen : (p.take (min 1024 p.length)).length = min 1024 p.length := by
    rw [List.length_take]; omega
  have hn : (c.Read p).1.n = (c.do (p.take (min 1024 p.length)) NetConn.Read).1.n := by
    simp only [conn.Read, minLen_eq]
  have he : (c.Read p).1.err = (c.do (p.take (min 1024 p.length)) NetConn.Read).1.err := by
    simp only [conn.Read, minLen_eq]
  have h2 : (c.Read p).2 = (c.do (p.take (min 1024 p.length)) NetConn.Read).2 := by
    simp only [conn.Read, minLen_eq]
  rw [hn, he, h2]
  refine ⟨hlen, by omega, conn.do_clock_nows _ _ _, ?_, ?_⟩
  · intro h
    have hd := conn.do_admitted c _ NetConn.Read h
    have hl := conn.do_admitted_limiters c _ NetConn.Read h
    rw [hd.1, hd.2, hl.1, hl.2]
    exact ⟨rfl, rfl, rfl, by simp [NetConn.Read], rfl, rfl⟩
  · intro h
    have hd := conn.do_not_admitted c _ NetConn.Read h
    rw [hd.1, hd.2]
    exact ⟨rfl, rfl, rfl⟩

/-- Witness of C7.  On the noop connection of the tests a `Read` into a buffer of
1025 bytes is admitted and hands the stream the first 1024 bytes; on a connection
with rate zero and no tokens left the attempt is refused. -/
theorem C7_read_single_clipped_attempt_witness :
    (testConn.admitted ((List.replicate 1025 (0 : Byte)).take
        (min 1024 (List.replicate 1025 (0 : Byte)).length)) = true ∧
      (testConn.Read (List.replicate 1025 0)).2.Conn.reads
        = testConn.Conn.reads ++ [(List.replicate 1025 (0 : Byte)).take
            (min 1024 (List.replicate 1025 (0 : Byte)).length)]) ∧
    (spentConn.admitted (([5] : List Byte).take (min 1024 ([5] : List Byte).length)) = false ∧
      (spentConn.Read [5]).1.err = some Error.ErrUnfulfillableReservation ∧
      (spentConn.Read [5]).2.Conn = spentConn.Conn) :=
  have h1 : testConn.admitted ((List.replicate 1025 (0 : Byte)).take
      (min 1024 (List.replicate 1025 (0 : Byte)).length)) = true := by
    simp [conn.admitted, testConn, wrapConn, rate.NewLimiter, rate.Limiter.ReserveN,
      rate.Reservation.OK]
  have h2 : spentConn.admitted (([5] : List Byte).take (min 1024 ([5] : List Byte).length))
      = false :=
    conn.not_admitted_of_zero_rate_spent spentConn _ rfl (by simp [spentConn, wrapConn])
  ⟨⟨h1, ((C7_read_single_clipped_attempt testConn (List.replicate 1025 0)).2.2.2.1 h1).2.2.2.1⟩,
   h2, ((C7_read_single_clipped_attempt spentConn [5]).2.2.2.2 h2).2.1,
   ((C7_read_single_clipped_attempt spentConn [5]).2.2.2.2 h2).2.2⟩

/-! ## The live set of the Limiter -/

theorem IsOption.frame (o : LimiterOption) (ho : IsOption o) (l : Limiter) :
    (o l).conns = l.conns ∧ (o l).next = l.next := by
  rcases ho with ⟨r, rfl⟩ | ⟨r, rfl⟩ | ⟨c, rfl⟩ <;> exact ⟨rfl, rfl⟩

theorem options_frame (opts : List LimiterOption) (h : ∀ o ∈ opts, IsOption o) :
    ∀ l : Limiter, (opts.foldl (fun acc opt => opt acc) l).conns = l.conns ∧
      (opts.foldl (fun acc opt => opt acc) l).next = l.next := by
  induction opts with
  | nil => intro l; exact ⟨rfl, rfl⟩
  | cons o opts ih =>
    intro l
    have ho := IsOption.frame o (h o (List.mem_cons_self _ _)) l
    have h2 := ih (fun o2 ho2 => h o2 (List.mem_cons_of_mem _ ho2)) (o l)
    simp only [List.foldl_cons]
    exact ⟨h2.1.trans ho.1, h2.2.trans ho.2⟩

theorem NewLimiter_empty (clock : Clock) (opts : List LimiterOption)
    (h : ∀ o ∈ opts, IsOption o) :
    (NewLimiter clock opts).conns = [] ∧ (NewLimiter clock opts).next = 0 := by
  have h2 := options_frame opts h
  simp only [NewLimiter]
  exact ⟨(h2 _).1, (h2 _).2⟩

theorem Limiter.connSetLimit_frame (l : Limiter) (a : Nat) (r : rate.Limit) :
    (l.connSetLimit a r).2.next = l.next ∧
    ∀ b, ((l.connSetLimit a r).2.heap b).close = (l.heap b).close := by
  refine ⟨by simp [Limiter.connSetLimit, Limiter.putConn], ?_⟩
  intro b
  by_cases hr : r < 0
  · rw [Limiter.connSetLimit_neg l a r hr]
  · by_cases hb : b = a
    · subst hb
      simp [Limiter.connSetLimit, Limiter.putConn, conn.SetLimit, hr, Limiter.connAt, wrapConn]
    · simp [Limiter.connSetLimit, Limiter.putConn, Function.update_noteq hb]

theorem Limiter.setAll_frame (r : rate.Limit) (as : List Nat) :
    ∀ l : Limiter,
      (as.foldl (fun acc a => (acc.connSetLimit a r).2) l).next = l.next ∧
      ∀ b, ((as.foldl (fun acc a => (acc.connSetLimit a r).2) l).heap b).close
        = (l.heap b).close := by
  induction as with
  | nil => intro l; exact ⟨rfl, fun _ => rfl⟩
  | cons a as ih =>
    intro l
    have h := ih (l.connSetLimit a r).2
    have h2 := Limiter.connSetLimit_frame l a r
    simp only [List.foldl_cons]
    exact ⟨h.1.trans h2.1, fun b => (h.2 b).trans (h2.2 b)⟩

theorem Limiter.SetLocalLimit_frame (l : Limiter) (r : rate.Limit) :
    (l.SetLocalLimit r).2.next = l.next ∧
    ∀ b, ((l.SetLocalLimit r).2.heap b).close = (l.heap b).close := by
  by_cases hr : r < 0
  · simp [Limiter.SetLocalLimit, hr]
  · simp only [Limiter.SetLocalLimit, hr, if_false]
    exact Limiter.setAll_frame r _ _

theorem Limiter.SetGlobalLimit_frame (l : Limiter) (r : rate.Limit) :
    (l.SetGlobalLimit r).2.next = l.next ∧ (l.SetGlobalLimit r).2.heap = l.heap ∧
    (l.SetGlobalLimit r).2.conns = l.conns ∧
    (l.SetGlobalLimit r).2.localLimit = l.localLimit := by
  by_cases hr : r < 0 <;> simp [Limiter.SetGlobalLimit, hr]

/-- What `Close` on the connection at address `a` does to the Limiter: the live
set loses `a` when the hook is installed and is kept otherwise, and no rate, no
hook and no address changes. -/
theorem Limiter.connClose_frame (l : Limiter) (a : Nat) :
    (l.connClose a).2.conns
      = (if (l.heap a).close = true then l.conns.filter (fun b => decide (b ≠ a))
         else l.conns) ∧
    (l.connClose a).2.next = l.next ∧
    (l.connClose a).2.localLimit = l.localLimit ∧
    (∀ b, (l.connClose a).2.connLimit b = l.connLimit b) ∧
    (∀ b, ((l.connClose a).2.heap b).close = (l.heap b).close) := by
  by_cases hc : (l.heap a).close = true
  · refine ⟨?_, ?_, ?_, ?_, ?_⟩
    · simp [Limiter.connClose, Limiter.connAt, wrapConn, hc, Limiter.putConn,
        Limiter.deleteConn]
    · simp [Limiter.connClose, Limiter.connAt, wrapConn, hc, Limiter.putConn,
        Limiter.deleteConn]
    · simp [Limiter.connClose, Limiter.connAt, wrapConn, hc, Limiter.putConn,
        Limiter.deleteConn]
    · intro b
      by_cases hb : b = a
      · subst hb
        simp [Limiter.connClose, Limiter.connAt, wrapConn, hc, Limiter.putConn,
          Limiter.deleteConn, Limiter.connLimit, conn.Limit]
      · simp [Limiter.connClose, Limiter.connAt, wrapConn, hc, Limiter.putConn,
          Limiter.deleteConn, Limiter.connLimit, conn.Limit, Function.update_noteq hb]
    · intro b
      by_cases hb : b = a
      · subst hb
        simp [Limiter.connClose, Limiter.connAt, wrapConn, hc, Limiter.putConn,
          Limiter.deleteConn]
      · simp [Limiter.connClose, Limiter.connAt, wrapConn, hc, Limiter.putConn,
          Limiter.deleteConn, Function.update_noteq hb]
  · refine ⟨?_, ?_, ?_, ?_, ?_⟩
    · simp [Limiter.connClose, Limiter.connAt, wrapConn, hc, Limiter.putConn]
    · simp [Limiter.connClose, Limiter.connAt, wrapConn, hc, Limiter.putConn]
    · simp [Limiter.connClose, Limiter.connAt, wrapConn, hc, Limiter.putConn]
    · intro b
      by_cases hb : b = a
      · subst hb
        simp [Limiter.connClose, Limiter.connAt, wrapConn, hc, Limiter.putConn,
          Limiter.connLimit, conn.Limit]
      · simp [Limiter.connClose, Limiter.connAt, wrapConn, hc, Limiter.putConn,
          Limiter.connLimit, conn.Limit, Function.update_noteq hb]
    · intro b
      by_cases hb : b = a
      · subst hb
        simp [Limiter.connClose, Limiter.connAt, wrapConn, hc, Limiter.putConn]
      · simp [Limiter.connClose, Limiter.connAt, wrapConn, hc, Limiter.putConn,
          Function.update_noteq hb]

/-- What `LimitConn` does to the Limiter: the new connection gets the next address,
carries the default local rate and the close hook, and joins the live set; all
other connections are as before. -/
theorem Limiter.LimitConn_frame (l : Limiter) (nc : NetConn) :
    (l.LimitConn nc).1 = l.next ∧
    (l.LimitConn nc).2.next = l.next + 1 ∧
    (l.LimitConn nc).2.localLimit = l.localLimit ∧
    (∀ b, b ∈ (l.LimitConn nc).2.conns ↔ b ∈ l.conns ∨ b = l.next) ∧
    (l.LimitConn nc).2.connLimit l.next = l.localLimit ∧
    ((l.LimitConn nc).2.heap l.next).close = true ∧
    (∀ b, b ≠ l.next → (l.LimitConn nc).2.connLimit b = l.connLimit b) ∧
    (∀ b, b ≠ l.next → ((l.LimitConn nc).2.heap b).close = (l.heap b).close) := by
  refine ⟨rfl, rfl, rfl, ?_, ?_, ?_, ?_, ?_⟩
  · intro b
    simp only [Limiter.LimitConn]
    split
    · constructor
      · intro h; exact Or.inl h
      · rintro (h | h)
        · exact h
        · subst h; assumption
    · simp
  · simp [Limiter.LimitConn, Limiter.connLimit, Limiter.connAt, wrapConn, conn.Limit,
      rate.Limiter.Limit, rate.NewLimiter]
  · simp [Limiter.LimitConn, wrapConn]
  · intro b hb
    simp [Limiter.LimitConn, Limiter.connLimit, Limiter.connAt, wrapConn, conn.Limit,
      Function.update_noteq hb]
  · intro b hb
    simp [Limiter.LimitConn, Function.update_noteq hb]

/-! ## Transfers leave the rates, the hooks and the live set alone -/

theorem rate.Limiter.ReserveN_limit (lim : rate.Limiter) (t : Time) (n : Int) :
    (lim.ReserveN t n).2.limit = lim.limit := by
  unfold rate.Limiter.ReserveN
  split
  · rfl
  · simp only
    split <;> rfl

theorem conn.do_frame (c : conn) (p : List Byte)
    (f : NetConn → List Byte → IOResult × NetConn) :
    (c.do p f).2.localLimiter.limit = c.localLimiter.limit ∧ (c.do p f).2.close = c.close := by
  unfold conn.do
  simp only
  split
  · exact ⟨rfl, rfl⟩
  · split
    · exact ⟨rate.Limiter.ReserveN_limit _ _ _, rfl⟩
    · exact ⟨rate.Limiter.ReserveN_limit _ _ _, rfl⟩

theorem conn.Read_frame (c : conn) (p : List Byte) :
    (c.Read p).2.localLimiter.limit = c.localLimiter.limit ∧ (c.Read p).2.close = c.close := by
  simp only [conn.Read]
  exact conn.do_frame _ _ _

theorem runChunks_invariant {T σ : Type} (f : List T → σ → Bool × σ) (P : σ → Prop)
    (hP : ∀ ch s, P s → P (f ch s).2) :
    ∀ (chs : List (List T)) (s : σ), P s → P (runChunks f chs s) := by
  intro chs
  induction chs with
  | nil => intro s hs; exact hs
  | cons ch rest ih =>
    intro s hs
    rw [runChunks]
    split
    · exact hP ch s hs
    · exact ih _ (hP ch s hs)

theorem conn.Write_frame (c : conn) (p : List Byte) :
    (c.Write p).2.localLimiter.limit = c.localLimiter.limit ∧ (c.Write p).2.close = c.close := by
  rw [conn.Write_eq_runChunks]
  exact runChunks_invariant conn.writeChunk
    (fun s => s.c.localLimiter.limit = c.localLimiter.limit ∧ s.c.close = c.close)
    (fun ch s hs => by
      have h := conn.do_frame s.c ch NetConn.Write
      simp only [conn.writeChunk]
      exact ⟨h.1.trans hs.1, h.2.trans hs.2⟩)
    _ _ ⟨rfl, rfl⟩

/-- Storing back a connection value that has kept its rate and its hook changes
neither the live set, nor the addresses, nor the default, nor any rate or
hook. -/
theorem Limiter.putConn_frame (l : Limiter) (a : Nat) (c : conn)
    (hlim : c.localLimiter.limit = (l.heap a).localLimiter.limit)
    (hcl : c.close = (l.heap a).close) :
    (l.putConn a c).conns = l.conns ∧
    (l.putConn a c).next = l.next ∧
    (l.putConn a c).localLimit = l.localLimit ∧
    (∀ b, (l.putConn a c).connLimit b = l.connLimit b) ∧
    (∀ b, ((l.putConn a c).heap b).close = (l.heap b).close) := by
  refine ⟨rfl, rfl, rfl, ?_, ?_⟩
  · intro b
    by_cases hb : b = a
    · subst hb
      simp [Limiter.putConn, Limiter.connLimit, Limiter.connAt, wrapConn, conn.Limit,
        rate.Limiter.Limit, hlim]
    · simp [Limiter.putConn, Limiter.connLimit, Limiter.connAt, wrapConn, conn.Limit,
        Function.update_noteq hb]
  · intro b
    by_cases hb : b = a
    · subst hb
      simp [Limiter.putConn, hcl]
    · simp [Limiter.putConn, Function.update_noteq hb]

theorem Limiter.connRead_frame (l : Limiter) (a : Nat) (p : List Byte) :
    (l.connRead a p).2.conns = l.conns ∧
    (l.connRead a p).2.next = l.next ∧
    (l.connRead a p).2.localLimit = l.localLimit ∧
    (∀ b, (l.connRead a p).2.connLimit b = l.connLimit b) ∧
    (∀ b, ((l.connRead a p).2.heap b).close = (l.heap b).close) :=
  Limiter.putConn_frame l a _ (conn.Read_frame (l.connAt a) p).1 (conn.Read_frame (l.connAt a) p).2

theorem Limiter.connWrite_frame (l : Limiter) (a : Nat) (p : List Byte) :
    (l.connWrite a p).2.conns = l.conns ∧
    (l.connWrite a p).2.next = l.next ∧
    (l.connWrite a p).2.localLimit = l.localLimit ∧
    (∀ b, (l.connWrite a p).2.connLimit b = l.connLimit b) ∧
    (∀ b, ((l.connWrite a p).2.heap b).close = (l.heap b).close) :=
  Limiter.putConn_frame l a _ (conn.Write_frame (l.connAt a) p).1
    (conn.Write_frame (l.connAt a) p).2

theorem Limiter.connRaw_frame (l : Limiter) (a : Nat) (nc : NetConn) :
    (l.connRaw a nc).conns = l.conns ∧
    (l.connRaw a nc).next = l.next ∧
    (l.connRaw a nc).localLimit = l.localLimit ∧
    (∀ b, (l.connRaw a nc).connLimit b = l.connLimit b) ∧
    (∀ b, ((l.connRaw a nc).heap b).close = (l.heap b).close) :=
  Limiter.putConn_frame l a _ rfl rfl

/-- In every reachable state each connection handed out by `LimitConn` carries the
close hook. -/
theorem Reachable.hook_installed {l : Limiter} (h : Reachable l) :
    ∀ a, a < l.next → (l.heap a).close = true := by
  induction h with
  | new clock opts hopts =>
    intro a ha
    rw [(NewLimiter_empty clock opts hopts).2] at ha
    omega
  | limitConn l nc _ ih =>
    intro a ha
    have hf := Limiter.LimitConn_frame l nc
    rw [hf.2.1] at ha
    by_cases hb : a = l.next
    · subst hb; exact hf.2.2.2.2.2.1
    · rw [hf.2.2.2.2.2.2.2 a hb]; exact ih a (by omega)
  | setGlobalLimit l r _ ih =>
    intro a ha
    have hf := Limiter.SetGlobalLimit_frame l r
    rw [hf.1] at ha
    rw [hf.2.1]; exact ih a ha
  | setLocalLimit l r _ ih =>
    intro a ha
    have hf := Limiter.SetLocalLimit_frame l r
    rw [hf.1] at ha
    rw [hf.2 a]; exact ih a ha
  | connSetLimit l b r _ _ ih =>
    intro a ha
    have hf := Limiter.connSetLimit_frame l b r
    rw [hf.1] at ha
    rw [hf.2 a]; exact ih a ha
  | connClose l b _ _ ih =>
    intro a ha
    have hf := Limiter.connClose_frame l b
    rw [hf.2.1] at ha
    rw [hf.2.2.2.2 a]; exact ih a ha
  | connRead l b p _ _ ih =>
    intro a ha
    have hf := Limiter.connRead_frame l b p
    rw [hf.2.1] at ha
    rw [hf.2.2.2.2 a]; exact ih a ha
  | connWrite l b p _ _ ih =>
    intro a ha
    have hf := Limiter.connWrite_frame l b p
    rw [hf.2.1] at ha
    rw [hf.2.2.2.2 a]; exact ih a ha
  | connRaw l b nc _ _ ih =>
    intro a ha
    have hf := Limiter.connRaw_frame l b nc
    rw [hf.2.1] at ha
    rw [hf.2.2.2.2 a]; exact ih a ha

/-- The record of overrides only annotates: a state with a record is reachable. -/
theorem ReachableWith.reachable {l : Limiter} {ov : Nat → Option rate.Limit}
    (h : ReachableWith l ov) : Reachable l := by
  induction h with
  | new clock opts hopts => exact Reachable.new clock opts hopts
  | limitConn l _ nc _ ih => exact Reachable.limitConn l nc ih
  | setGlobalLimit l _ r _ ih => exact Reachable.setGlobalLimit l r ih
  | setLocalLimit l _ r _ ih => exact Reachable.setLocalLimit l r ih
  | connSetLimit l _ a r _ ha ih => exact Reachable.connSetLimit l a r ih ha
  | connClose l _ a _ ha ih => exact Reachable.connClose l a ih ha
  | connRead l _ a p _ ha ih => exact Reachable.connRead l a p ih ha
  | connWrite l _ a p _ ha ih => exact Reachable.connWrite l a p ih ha
  | connRaw l _ a nc _ ha ih => exact Reachable.connRaw l a nc ih ha

/-- Every reachable state has a record of overrides: no history is left out. -/
theorem Reachable.has_record {l : Limiter} (h : Reachable l) :
    ∃ ov, ReachableWith l ov := by
  induction h with
  | new clock opts hopts => exact ⟨_, ReachableWith.new clock opts hopts⟩
  | limitConn l nc _ ih =>
    obtain ⟨ov, h⟩ := ih
    exact ⟨_, ReachableWith.limitConn l ov nc h⟩
  | setGlobalLimit l r _ ih =>
    obtain ⟨ov, h⟩ := ih
    exact ⟨_, ReachableWith.setGlobalLimit l ov r h⟩
  | setLocalLimit l r _ ih =>
    obtain ⟨ov, h⟩ := ih
    exact ⟨_, ReachableWith.setLocalLimit l ov r h⟩
  | connSetLimit l a r _ ha ih =>
    obtain ⟨ov, h⟩ := ih
    exact ⟨_, ReachableWith.connSetLimit l ov a r h ha⟩
  | connClose l a _ ha ih =>
    obtain ⟨ov, h⟩ := ih
    exact ⟨_, ReachableWith.connClose l ov a h ha⟩
  | connRead l a p _ ha ih =>
    obtain ⟨ov, h⟩ := ih
    exact ⟨_, ReachableWith.connRead l ov a p h ha⟩
  | connWrite l a p _ ha ih =>
    obtain ⟨ov, h⟩ := ih
    exact ⟨_, ReachableWith.connWrite l ov a p h ha⟩
  | connRaw l a nc _ ha ih =>
    obtain ⟨ov, h⟩ := ih
    exact ⟨_, ReachableWith.connRaw l ov a nc h ha⟩

/-- Counterexample to C8 as stated.  A new Limiter wraps one connection and
`SetLimit(5)` is called on it.  The state is reachable through the public
operations, the connection is in the live set, its rate is 5, and the default
local rate of the Limiter is still unbounded. -/
theorem C8_counterexample :
    Reachable oneConnSet ∧ 0 ∈ oneConnSet.conns ∧ oneConnSet.connLimit 0 = 5 ∧
    oneConnSet.LocalLimit = rate.Inf ∧
    ¬ (∀ a ∈ oneConnSet.conns, oneConnSet.connLimit a = oneConnSet.LocalLimit) := by
  have hr : Reachable oneConnSet :=
    Reachable.connSetLimit _ 0 5
      (Reachable.limitConn _ noopConn (Reachable.new testClock [] (by simp)))
      (by decide)
  have hmem : 0 ∈ oneConnSet.conns := by decide
  have hlim : oneConnSet.connLimit 0 = 5 :=
    Limiter.connSetLimit_self oneConn 0 5 (by norm_num)
  have hloc : oneConnSet.LocalLimit = rate.Inf := rfl
  refine ⟨hr, hmem, hlim, hloc, ?_⟩
  intro h
  have h0 := h 0 hmem
  rw [hlim, hloc] at h0
  norm_num [rate.Inf] at h0

/-- Claim C8, amended.  In every state reachable from `NewLimiter` through the
public operations (`LimitConn`, `SetGlobalLimit`, `SetLocalLimit`,
`Conn.SetLimit`, `Conn.Close`, and also `Read`, `Write` and the methods of the
embedded `net.Conn`), with `ov` the record of overrides of its history: every
connection in the live set on which no `Conn.SetLimit` has been accepted since
the last accepted `SetLocalLimit` has a local rate equal to `LocalLimit()`; and
a connection on which one has been accepted has the rate of the last such
call. -/
theorem C8_live_connections_carry_default_unless_overridden {l : Limiter}
    {ov : Nat → Option rate.Limit} (h : ReachableWith l ov) :
    (∀ a ∈ l.conns, ov a = none → l.connLimit a = l.LocalLimit) ∧
    (∀ a r, ov a = some r → l.connLimit a = r) := by
  induction h with
  | new clock opts hopts =>
    refine ⟨?_, ?_⟩
    · intro a ha
      rw [(NewLimiter_empty clock opts hopts).1] at ha
      simp at ha
    · intro a r h0
      simp at h0
  | limitConn l ov nc _ ih =>
    have hf := Limiter.LimitConn_frame l nc
    refine ⟨?_, ?_⟩
    · intro a ha hov
      simp only [Limiter.LocalLimit, hf.2.2.1]
      by_cases hb : a = l.next
      · subst hb; exact hf.2.2.2.2.1
      · rw [hf.2.2.2.2.2.2.1 a hb]
        rw [Function.update_noteq hb] at hov
        rcases (hf.2.2.2.1 a).mp ha with h1 | h1
        · exact ih.1 a h1 hov
        · exact absurd h1 hb
    · intro a r hov
      by_cases hb : a = l.next
      · subst hb
        simp at hov
      · rw [Function.update_noteq hb] at hov
        rw [hf.2.2.2.2.2.2.1 a hb]
        exact ih.2 a r hov
  | setGlobalLimit l ov r _ ih =>
    have hf := Limiter.SetGlobalLimit_frame l r
    refine ⟨?_, ?_⟩
    · intro a ha hov
      rw [hf.2.2.1] at ha
      simp only [Limiter.LocalLimit, Limiter.connLimit, Limiter.connAt, wrapConn, hf.2.1,
        hf.2.2.2]
      exact ih.1 a ha hov
    · intro a r0 hov
      simp only [Limiter.connLimit, Limiter.connAt, wrapConn, hf.2.1]
      exact ih.2 a r0 hov
  | setLocalLimit l ov r _ ih =>
    by_cases hr : r < 0
    · have hs : l.SetLocalLimit r = (some Error.ErrInvalidLimit, l) := by
        simp [Limiter.SetLocalLimit, hr]
      rw [hs, if_pos hr]
      exact ih
    · have hs := Limiter.SetLocalLimit_nonneg l r (not_lt.mp hr)
      have hspec := Limiter.setAll_spec r (not_lt.mp hr)
        ({ l with localLimit := r } : Limiter).conns { l with localLimit := r }
      simp only at hspec
      rw [hs, if_neg hr]
      simp only
      refine ⟨?_, ?_⟩
      · intro a ha _
        rw [hspec.1] at ha
        rw [hspec.2.2.2 a, Limiter.LocalLimit, hspec.2.1]
        simp [ha]
      · intro a r0 hov
        simp only [overridesAfterSetLocalLimit] at hov
        by_cases hm : a ∈ l.conns
        · simp [hm] at hov
        · rw [if_neg hm] at hov
          rw [hspec.2.2.2 a, if_neg hm]
          exact ih.2 a r0 hov
  | connSetLimit l ov b r _ _ ih =>
    by_cases hr : r < 0
    · rw [Limiter.connSetLimit_neg l b r hr, if_pos hr]
      exact ih
    · rw [if_neg hr]
      refine ⟨?_, ?_⟩
      · intro a ha hov
        rw [Limiter.connSetLimit_conns] at ha
        simp only [Limiter.LocalLimit, Limiter.connSetLimit_localLimit]
        by_cases hab : a = b
        · subst hab
          simp at hov
        · rw [Function.update_noteq hab] at hov
          rw [Limiter.connSetLimit_other l b a r hab]
          exact ih.1 a ha hov
      · intro a r0 hov
        by_cases hab : a = b
        · subst hab
          rw [Function.update_same] at hov
          rw [Limiter.connSetLimit_self l a r (not_lt.mp hr)]
          exact Option.some.inj hov
        · rw [Function.update_noteq hab] at hov
          rw [Limiter.connSetLimit_other l b a r hab]
          exact ih.2 a r0 hov
  | connClose l ov b _ _ ih =>
    have hf := Limiter.connClose_frame l b
    refine ⟨?_, ?_⟩
    · intro a ha hov
      simp only [Limiter.LocalLimit, hf.2.2.1, hf.2.2.2.1 a]
      rw [hf.1] at ha
      refine ih.1 a ?_ hov
      split at ha
      · exact (List.mem_filter.mp ha).1
      · exact ha
    · intro a r0 hov
      rw [hf.2.2.2.1 a]
      exact ih.2 a r0 hov
  | connRead l ov b p _ _ ih =>
    have hf := Limiter.connRead_frame l b p
    refine ⟨?_, ?_⟩
    · intro a ha hov
      rw [hf.1] at ha
      simp only [Limiter.LocalLimit, hf.2.2.1, hf.2.2.2.1 a]
      exact ih.1 a ha hov
    · intro a r0 hov
      rw [hf.2.2.2.1 a]
      exact ih.2 a r0 hov
  | connWrite l ov b p _ _ ih =>
    have hf := Limiter.connWrite_frame l b p
    refine ⟨?_, ?_⟩
    · intro a ha hov
      rw [hf.1] at ha
      simp only [Limiter.LocalLimit, hf.2.2.1, hf.2.2.2.1 a]
      exact ih.1 a ha hov
    · intro a r0 hov
      rw [hf.2.2.2.1 a]
      exact ih.2 a r0 hov
  | connRaw l ov b nc _ _ ih =>
    have hf := Limiter.connRaw_frame l b nc
    refine ⟨?_, ?_⟩
    · intro a ha hov
      rw [hf.1] at ha
      simp only [Limiter.LocalLimit, hf.2.2.1, hf.2.2.2.1 a]
      exact ih.1 a ha hov
    · intro a r0 hov
      rw [hf.2.2.2.1 a]
      exact ih.2 a r0 hov

theorem pacedLimiter_next : pacedLimiter.next = 2 := by decide

theorem pacedLimiter_conns : pacedLimiter.conns = [0, 1] := by decide

theorem usedLimiter_next : usedLimiter.next = 2 :=
  (Limiter.connWrite_frame pacedLimiter 0 [5]).2.1.trans pacedLimiter_next

theorem usedLimiter_conns : usedLimiter.conns = [0, 1] :=
  (Limiter.connWrite_frame pacedLimiter 0 [5]).1.trans pacedLimiter_conns

/-- The transfer through `usedLimiter` was paced: the global limiter, which held
1024 tokens, holds 1023 after the write of one byte. -/
theorem usedLimiter_global_tokens :
    pacedLimiter.globalLimiter.tokens = 1024 ∧ usedLimiter.globalLimiter.tokens = 1023 := by
  have h : ¬ ((100 : ℚ) = rate.Inf) := by norm_num [rate.Inf]
  constructor
  · norm_num [pacedLimiter, Limiter.LimitConn, Limiter.SetGlobalLimit, NewLimiter,
      rate.Limiter.SetLimitAt, rate.Limiter.advance, rate.NewLimiter, chunkSize, Clock.Now,
      testClock, rate.tokensFromDuration, wrapConn]
  · simp only [usedLimiter, Limiter.connWrite, Limiter.putConn]
    rw [conn.Write_eq_runChunks]
    have hch : chunks chunkSize.toNat ([5] : List Byte) = [[5]] := by decide
    rw [hch]
    norm_num [runChunks, conn.writeChunk, conn.do, Limiter.connAt, pacedLimiter,
      Limiter.LimitConn, Limiter.SetGlobalLimit, NewLimiter, rate.Limiter.SetLimitAt,
      rate.Limiter.advance, rate.NewLimiter, chunkSize, Clock.Now, Clock.Sleep, testClock,
      rate.tokensFromDuration, wrapConn, rate.Limiter.ReserveN, rate.Reservation.OK,
      NetConn.Write, noopConn, h, Function.update]

theorem pacedLimiter_reachableWith :
    ReachableWith pacedLimiter
      (Function.update (Function.update (fun _ => none) 0 none) 1 none) :=
  ReachableWith.limitConn _ _ noopConn
    (ReachableWith.limitConn _ _ noopConn
      (ReachableWith.setGlobalLimit _ _ 100 (ReachableWith.new testClock [] (by simp))))

theorem usedLimiter_reachable : Reachable usedLimiter :=
  (ReachableWith.connWrite pacedLimiter _ 0 [5] pacedLimiter_reachableWith
    (by rw [pacedLimiter_next]; decide)).reachable

theorem overriddenLimiter_reachableWith :
    ReachableWith overriddenLimiter overriddenRecord := by
  have h := ReachableWith.connSetLimit usedLimiter _ 0 5
    (ReachableWith.connWrite pacedLimiter _ 0 [5] pacedLimiter_reachableWith
      (by rw [pacedLimiter_next]; decide))
    (by rw [usedLimiter_next]; decide)
  rw [if_neg (by norm_num)] at h
  exact h

/-- Witness of C8 as amended.  A Limiter with the global limit at 100 wraps two
connections, one byte is written through the first, and `SetLimit(5)` is
accepted on the first.  The second connection, never overridden, carries the
default; the first carries the rate 5 it was given. -/
theorem C8_live_connections_carry_default_unless_overridden_witness :
    ReachableWith overriddenLimiter overriddenRecord ∧
    overriddenLimiter.conns = [0, 1] ∧
    overriddenRecord 1 = none ∧ overriddenRecord 0 = some 5 ∧
    overriddenLimiter.connLimit 1 = overriddenLimiter.LocalLimit ∧
    overriddenLimiter.connLimit 0 = 5 :=
  have h := C8_live_connections_carry_default_unless_overridden overriddenLimiter_reachableWith
  have hconns : overriddenLimiter.conns = [0, 1] :=
    (Limiter.connSetLimit_conns usedLimiter 0 5).trans usedLimiter_conns
  have h1 : overriddenRecord 1 = none := by decide
  have h0 : overriddenRecord 0 = some 5 := by decide
  ⟨overriddenLimiter_reachableWith, hconns, h1, h0,
   h.1 1 (by rw [hconns]; decide) h1, h.2 0 5 h0⟩

/-- What closing the connection at address `c` does when the connection carries the
close hook, in any state of the Limiter. -/
theorem Limiter.close_with_hook (l : Limiter) (c : Nat) (hook : (l.heap c).close = true)
    (r : rate.Limit) (hr : 0 ≤ r) :
    c ∉ (l.connClose c).2.conns ∧
    (∀ b, b ≠ c → (b ∈ (l.connClose c).2.conns ↔ b ∈ l.conns)) ∧
    ((l.connClose c).2.SetLocalLimit r).1 = none ∧
    ((l.connClose c).2.SetLocalLimit r).2.connLimit c = (l.connClose c).2.connLimit c ∧
    (∀ b ∈ (l.connClose c).2.conns, ((l.connClose c).2.SetLocalLimit r).2.connLimit b = r) ∧
    ((l.connClose c).2.connClose c).2.conns = (l.connClose c).2.conns := by
  have hf := Limiter.connClose_frame l c
  rw [if_pos hook] at hf
  have hnot : c ∉ (l.connClose c).2.conns := by
    rw [hf.1]
    simp
  have hs := Limiter.SetLocalLimit_nonneg (l.connClose c).2 r hr
  have hspec := Limiter.setAll_spec r hr
    ({ (l.connClose c).2 with localLimit := r } : Limiter).conns
    { (l.connClose c).2 with localLimit := r }
  simp only at hspec
  refine ⟨hnot, ?_, ?_, ?_, ?_, ?_⟩
  · intro b hb
    rw [hf.1]
    simp [hb]
  · rw [hs]
  · rw [hs]
    simp only
    rw [hspec.2.2.2 c, if_neg hnot]
    rfl
  · intro b hb
    rw [hs]
    simp only
    rw [hspec.2.2.2 b, if_pos hb]
  · have hf2 := Limiter.connClose_frame (l.connClose c).2 c
    rw [hf2.1]
    split
    · apply List.filter_eq_self.mpr
      intro b hb
      have : b ≠ c := fun h => hnot (h ▸ hb)
      simpa using this
    · rfl

/-- Claim C9.  For every connection `c` obtained from `LimitConn`, that is, in any
state of the Limiter a connection that carries the close hook `LimitConn`
installs, and in particular every connection handed out (an address below
`next`) in a state reachable through the public operations, transfers
included: after `c.Close()`, `c` is not in the live set and every other
connection is in it exactly when it was before; for every rate `r` that is not
negative a following `SetLocalLimit(r)` returns no error, leaves `c.Limit()` as
it was before that call and sets every connection still in the live set to `r`;
and closing `c` a second time leaves the live set unchanged. -/
theorem C9_close_deregisters (l : Limiter) (c : Nat)
    (hc : (l.heap c).close = true ∨ (Reachable l ∧ c < l.next))
    (r : rate.Limit) (hr : 0 ≤ r) :
    c ∉ (l.connClose c).2.conns ∧
    (∀ b, b ≠ c → (b ∈ (l.connClose c).2.conns ↔ b ∈ l.conns)) ∧
    ((l.connClose c).2.SetLocalLimit r).1 = none ∧
    ((l.connClose c).2.SetLocalLimit r).2.connLimit c = (l.connClose c).2.connLimit c ∧
    (∀ b ∈ (l.connClose c).2.conns, ((l.connClose c).2.SetLocalLimit r).2.connLimit b = r) ∧
    ((l.connClose c).2.connClose c).2.conns = (l.connClose c).2.conns := by
  have hook : (l.heap c).close = true := by
    rcases hc with h | ⟨h1, h2⟩
    · exact h
    · exact Reachable.hook_installed h1 c h2
  exact Limiter.close_with_hook l c hook r hr

theorem tenConns_reachable : Reachable tenConns := by
  simp only [tenConns, List.range_succ, List.range_zero, List.nil_append, List.cons_append,
    List.foldl_cons, List.foldl_nil]
  repeat apply Reachable.limitConn
  apply Reachable.setLocalLimit
  exact Reachable.new testClock [] (by simp)

/-- Witness of C9.  First on the ten connection Limiter of the test file, whose
fourth connection is closed before the local limit is set to 321.  Then on a
Limiter whose first connection has made a paced transfer (one byte written
under a global limit of 100, which took a token from the global limiter) before
it is closed: the other connection is set to 321. -/
theorem C9_close_deregisters_witness :
    (Reachable tenConns ∧ 3 < tenConns.next ∧ ((0 : rate.Limit) ≤ 321) ∧
      (tenConns.connClose 3).2.conns = [0, 1, 2, 4, 5, 6, 7, 8, 9] ∧
      3 ∉ (tenConns.connClose 3).2.conns ∧
      ((tenConns.connClose 3).2.SetLocalLimit 321).2.connLimit 3
        = (tenConns.connClose 3).2.connLimit 3 ∧
      (∀ b ∈ (tenConns.connClose 3).2.conns,
        ((tenConns.connClose 3).2.SetLocalLimit 321).2.connLimit b = 321)) ∧
    (Reachable usedLimiter ∧ 0 < usedLimiter.next ∧
      usedLimiter.globalLimiter.tokens = 1023 ∧
      (usedLimiter.heap 0).close = true ∧
      0 ∉ (usedLimiter.connClose 0).2.conns ∧
      (1 ∈ (usedLimiter.connClose 0).2.conns ↔ 1 ∈ usedLimiter.conns) ∧
      1 ∈ usedLimiter.conns ∧
      ((usedLimiter.connClose 0).2.SetLocalLimit 321).2.connLimit 1 = 321 ∧
      ((usedLimiter.connClose 0).2.connClose 0).2.conns = (usedLimiter.connClose 0).2.conns) :=
  have hc : 3 < tenConns.next := by decide
  have h := C9_close_deregisters tenConns 3 (Or.inr ⟨tenConns_reachable, hc⟩) 321
    (by norm_num)
  have hru : Reachable usedLimiter := usedLimiter_reachable
  have hcu : 0 < usedLimiter.next := by rw [usedLimiter_next]; decide
  have hook := Reachable.hook_installed hru 0 hcu
  have hu := C9_close_deregisters usedLimiter 0 (Or.inl hook) 321 (by norm_num)
  have hmem : 1 ∈ usedLimiter.conns := by rw [usedLimiter_conns]; decide
  have hiff := hu.2.1 1 (by decide)
  ⟨⟨tenConns_reachable, hc, by norm_num, by decide, h.1, h.2.2.2.1, h.2.2.2.2.1⟩,
   ⟨hru, hcu, usedLimiter_global_tokens.2, hook, hu.1, hiff, hmem,
    hu.2.2.2.2.1 1 (hiff.mpr hmem), hu.2.2.2.2.2⟩⟩

/-! ## Construction of the Limiter -/

/-- Claim C10, evaluated on the code.  `WithGlobalLimit` does not use its argument:
whatever rate `r` is supplied, `NewLimiter(WithGlobalLimit(r))` has an unbounded
global limit, so for `r = 100` `GlobalLimit()` is not the supplied rate.  With
no option given, `NewLimiter()` has unbounded global and local limits. -/
theorem C10_WithGlobalLimit_ignores_rate (clock : Clock) :
    (∀ r : rate.Limit, (NewLimiter clock [WithGlobalLimit r]).GlobalLimit = rate.Inf) ∧
    (NewLimiter clock [WithGlobalLimit 100]).GlobalLimit ≠ 100 ∧
    (NewLimiter clock []).GlobalLimit = rate.Inf ∧
    (NewLimiter clock []).LocalLimit = rate.Inf := by
  refine ⟨fun _ => rfl, ?_, rfl, rfl⟩
  have h : (NewLimiter clock [WithGlobalLimit 100]).GlobalLimit = rate.Inf := rfl
  rw [h]
  norm_num [rate.Inf]

/-! ## Refund of a cancelled reservation -/

theorem rate.Limiter.advance_le_burst (lim : rate.Limiter) (t : Time) :
    lim.advance t ≤ (lim.burst : ℚ) := by
  simp only [rate.Limiter.advance]
  split_ifs <;> first | exact le_refl _ | linarith

theorem rate.tokensFromDuration_zero (limit : rate.Limit) :
    rate.tokensFromDuration limit 0 = 0 := by
  simp [rate.tokensFromDuration]

/-- The token level of a budget that was settled at `t` with at most `burst`
tokens, read again at `t`, is the level it was settled with. -/
theorem rate.Limiter.advance_settled (limit : rate.Limit) (burst : Int) (tokens : ℚ) (t : Time)
    (h : tokens ≤ (burst : ℚ)) :
    ({ limit := limit, burst := burst, tokens := tokens, last := t } : rate.Limiter).advance t
      = tokens := by
  simp only [rate.Limiter.advance, lt_irrefl, if_false, sub_self,
    rate.tokensFromDuration_zero, add_zero]
  rw [if_neg (not_lt.mpr h)]

theorem rate.Limiter.ReserveN_unbounded (lim : rate.Limiter) (t : Time) (n : Int)
    (hinf : lim.limit = rate.Inf) :
    lim.ReserveN t n = ({ ok := true, tokens := n, timeToAct := t }, lim) := by
  simp [rate.Limiter.ReserveN, hinf]

theorem rate.Limiter.ReserveN_feasible (lim : rate.Limiter) (t : Time) (n : Int)
    (hinf : ¬ lim.limit = rate.Inf)
    (hfe : n ≤ lim.burst ∧ (0 ≤ lim.advance t - n ∨ 0 < lim.limit)) :
    lim.ReserveN t n =
      ({ ok := true, tokens := n,
         timeToAct := t + (if lim.advance t - n < 0 then -(lim.advance t - n) / lim.limit
           else 0) },
       { lim with last := t, tokens := lim.advance t - n }) := by
  simp only [rate.Limiter.ReserveN, hinf, if_false]
  rw [if_pos hfe]

theorem rate.Limiter.ReserveN_infeasible (lim : rate.Limiter) (t : Time) (n : Int)
    (hinf : ¬ lim.limit = rate.Inf)
    (hfe : ¬ (n ≤ lim.burst ∧ (0 ≤ lim.advance t - n ∨ 0 < lim.limit))) :
    lim.ReserveN t n = ({ ok := false, tokens := 0, timeToAct := t }, lim) := by
  simp only [rate.Limiter.ReserveN, hinf, if_false]
  rw [if_neg hfe]

/-- The budget left by reserving and cancelling at once: an unbounded budget is
left as it was, any other budget is left settled at `t`, holding the tokens it
held as of `t` before the reservation. -/
theorem rate.Limiter.reserve_cancel_state (lim : rate.Limiter) (t : Time) (n : Int)
    (hn : 0 ≤ n) (hok : (lim.ReserveN t n).1.OK = true) :
    (lim.limit = rate.Inf ∧ (lim.ReserveN t n).1.CancelAt t (lim.ReserveN t n).2 = lim) ∨
    (¬ lim.limit = rate.Inf ∧ (lim.ReserveN t n).1.CancelAt t (lim.ReserveN t n).2
      = { lim with last := t, tokens := lim.advance t }) := by
  by_cases hinf : lim.limit = rate.Inf
  · left
    refine ⟨hinf, ?_⟩
    rw [rate.Limiter.ReserveN_unbounded lim t n hinf]
    simp [rate.Reservation.CancelAt, hinf]
  · right
    refine ⟨hinf, ?_⟩
    have hadv := rate.Limiter.advance_le_burst lim t
    have hnq : (0 : ℚ) ≤ (n : ℚ) := by exact_mod_cast hn
    by_cases hfe : n ≤ lim.burst ∧ (0 ≤ lim.advance t - n ∨ 0 < lim.limit)
    · have hwait : (0 : ℚ) ≤ (if lim.advance t - n < 0 then -(lim.advance t - n) / lim.limit
          else 0) := by
        split
        · rename_i hneg
          rcases hfe.2 with h0 | h0
          · linarith
          · exact div_nonneg (by linarith) (le_of_lt h0)
        · exact le_refl _
      have hset : ({ lim with last := t, tokens := lim.advance t - n } : rate.Limiter).advance t
          = lim.advance t - n :=
        rate.Limiter.advance_settled _ _ _ _ (by linarith)
      rw [rate.Limiter.ReserveN_feasible lim t n hinf hfe]
      by_cases hn0 : n = 0
      · subst hn0
        simp [rate.Reservation.CancelAt]
      · have hcond : ¬ (lim.limit = rate.Inf ∨ n = 0 ∨
            t + (if lim.advance t - n < 0 then -(lim.advance t - n) / lim.limit else 0) < t) := by
          rintro (h | h | h)
          · exact hinf h
          · exact hn0 h
          · linarith
        have hb : ¬ ((lim.burst : ℚ) < lim.advance t - n + n) := by
          rw [sub_add_cancel]; exact not_lt.mpr hadv
        simp only [rate.Reservation.CancelAt, Bool.true_eq_false, if_false]
        rw [if_neg hcond]
        simp only [hset]
        rw [if_neg hb, sub_add_cancel]
    · exfalso
      rw [rate.Limiter.ReserveN_infeasible lim t n hinf hfe] at hok
      simp [rate.Reservation.OK] at hok

/-- Reserving and cancelling at once gives the tokens back: the budget keeps its
rate and burst and holds, as of `t`, the tokens it held before the reservation. -/
theorem rate.Limiter.reserve_cancel (lim : rate.Limiter) (t : Time) (n : Int) (hn : 0 ≤ n)
    (hok : (lim.ReserveN t n).1.OK = true) :
    ((lim.ReserveN t n).1.CancelAt t (lim.ReserveN t n).2).limit = lim.limit ∧
    ((lim.ReserveN t n).1.CancelAt t (lim.ReserveN t n).2).burst = lim.burst ∧
    ((lim.ReserveN t n).1.CancelAt t (lim.ReserveN t n).2).advance t = lim.advance t := by
  rcases rate.Limiter.reserve_cancel_state lim t n hn hok with ⟨_, h⟩ | ⟨_, h⟩
  · rw [h]
    exact ⟨rfl, rfl, rfl⟩
  · rw [h]
    exact ⟨rfl, rfl,
      rate.Limiter.advance_settled _ _ _ _ (rate.Limiter.advance_le_burst lim t)⟩

/-- Settling a budget at `t` does not change what it holds at any later time,
provided `t` is not before the time the budget was last settled. -/
theorem rate.Limiter.advance_after_settle (lim : rate.Limiter) (t u : Time)
    (h1 : lim.last ≤ t) (h2 : t ≤ u) :
    ({ lim with last := t, tokens := lim.advance t } : rate.Limiter).advance u
      = lim.advance u := by
  have h3 : ¬ t < lim.last := not_lt.mpr h1
  have h4 : ¬ u < lim.last := not_lt.mpr (le_trans h1 h2)
  have h5 : ¬ u < t := not_lt.mpr h2
  simp only [rate.Limiter.advance, rate.tokensFromDuration, h3, h4, h5, if_false]
  by_cases hl : lim.limit ≤ 0
  · simp only [hl, if_true, add_zero]
    split_ifs <;> rfl
  · simp only [hl, if_false]
    have hpos : 0 < lim.limit := not_le.mp hl
    have ha : 0 ≤ (u - t) * lim.limit := mul_nonneg (by linarith) (le_of_lt hpos)
    have hb : (u - lim.last) * lim.limit = (t - lim.last) * lim.limit + (u - t) * lim.limit := by
      ring
    rw [hb]
    split_ifs <;> first | rfl | linarith

/-- What `do` returns and leaves behind when the global reservation is not
feasible. -/
theorem conn.do_global_infeasible (c : conn) (p : List Byte)
    (f : NetConn → List Byte → IOResult × NetConn)
    (hg : (c.globalLimiter.ReserveN (c.clock.Now).1 p.length).1.OK = false) :
    c.do p f =
      ({ n := 0, err := some Error.ErrUnfulfillableReservation, buf := p },
       { c with clock := (c.clock.Now).2,
                globalLimiter := (c.globalLimiter.ReserveN (c.clock.Now).1 p.length).2 }) := by
  simp [conn.do, hg]

theorem conn.doCalls_both_feasible (c : conn) (p : List Byte)
    (hg : (c.globalLimiter.ReserveN (c.clock.Now).1 p.length).1.OK = true)
    (hl : (c.localLimiter.ReserveN (c.clock.Now).1 p.length).1.OK = true) :
    c.doCalls p =
      [Call.Now,
       Call.ReserveGlobal (c.clock.Now).1 p.length,
       Call.ReserveLocal (c.clock.Now).1 p.length,
       Call.Sleep
         (max ((c.globalLimiter.ReserveN (c.clock.Now).1 p.length).1.DelayFrom (c.clock.Now).1)
              ((c.localLimiter.ReserveN (c.clock.Now).1 p.length).1.DelayFrom (c.clock.Now).1)),
       Call.Raw p] := by
  simp [conn.doCalls, hg, hl]

theorem conn.doCalls_local_infeasible (c : conn) (p : List Byte)
    (hg : (c.globalLimiter.ReserveN (c.clock.Now).1 p.length).1.OK = true)
    (hl : (c.localLimiter.ReserveN (c.clock.Now).1 p.length).1.OK = false) :
    c.doCalls p =
      [Call.Now,
       Call.ReserveGlobal (c.clock.Now).1 p.length,
       Call.ReserveLocal (c.clock.Now).1 p.length,
       Call.CancelGlobal (c.clock.Now).1] := by
  simp [conn.doCalls, hg, hl]

theorem conn.doCalls_global_infeasible (c : conn) (p : List Byte)
    (hg : (c.globalLimiter.ReserveN (c.clock.Now).1 p.length).1.OK = false) :
    c.doCalls p = [Call.Now, Call.ReserveGlobal (c.clock.Now).1 p.length] := by
  simp [conn.doCalls, hg]

/-- What `do` returns and leaves behind when the global reservation is feasible and
the local one is not. -/
theorem conn.do_local_infeasible (c : conn) (p : List Byte)
    (f : NetConn → List Byte → IOResult × NetConn)
    (hg : (c.globalLimiter.ReserveN (c.clock.Now).1 p.length).1.OK = true)
    (hl : (c.localLimiter.ReserveN (c.clock.Now).1 p.length).1.OK = false) :
    c.do p f =
      ({ n := 0, err := some Error.ErrUnfulfillableReservation, buf := p },
       { c with clock := (c.clock.Now).2,
                globalLimiter := (c.globalLimiter.ReserveN (c.clock.Now).1 p.length).1.CancelAt
                  (c.clock.Now).1 (c.globalLimiter.ReserveN (c.clock.Now).1 p.length).2,
                localLimiter := (c.localLimiter.ReserveN (c.clock.Now).1 p.length).2 }) := by
  simp [conn.do, hg, hl]

/-- Claim C11.  In every state and for every slice, of any length, for which the
global reservation is feasible and the local one is not, `do` returns zero and
`ErrUnfulfillableReservation`, reads the clock once, does not sleep and does not
call the wrapped stream, whatever operation was passed.  The global reservation
is given back: afterwards the global limiter has the rate and the burst it had,
and holds as of the clock reading the tokens it held before the request; when
the clock reading is not before the time the limiter was last settled it also
holds the same tokens at every later time.  This covers a global rate of zero,
a finite one and the unbounded one, which is not changed at all.  The calls
`do` makes are, in order: clock reading, global reservation, local reservation,
cancellation of the global reservation. -/
theorem C11_global_reservation_refunded (c : conn) (p : List Byte)
    (f : NetConn → List Byte → IOResult × NetConn)
    (hg : (c.globalLimiter.ReserveN (c.clock.Now).1 p.length).1.OK = true)
    (hl : (c.localLimiter.ReserveN (c.clock.Now).1 p.length).1.OK = false) :
    (c.do p f).1.n = 0 ∧
    (c.do p f).1.err = some Error.ErrUnfulfillableReservation ∧
    (c.do p f).2.clock.nows = c.clock.nows + 1 ∧
    (c.do p f).2.clock.sleeps = c.clock.sleeps ∧
    (c.do p f).2.Conn = c.Conn ∧
    (c.do p f).2.globalLimiter.Limit = c.globalLimiter.Limit ∧
    (c.do p f).2.globalLimiter.burst = c.globalLimiter.burst ∧
    (c.do p f).2.globalLimiter.advance (c.clock.Now).1
      = c.globalLimiter.advance (c.clock.Now).1 ∧
    (∀ u, c.globalLimiter.last ≤ (c.clock.Now).1 → (c.clock.Now).1 ≤ u →
      (c.do p f).2.globalLimiter.advance u = c.globalLimiter.advance u) ∧
    (c.globalLimiter.limit = rate.Inf → (c.do p f).2.globalLimiter = c.globalLimiter) ∧
    c.doCalls p =
      [Call.Now,
       Call.ReserveGlobal (c.clock.Now).1 p.length,
       Call.ReserveLocal (c.clock.Now).1 p.length,
       Call.CancelGlobal (c.clock.Now).1] := by
  have hn : (0 : Int) ≤ (p.length : Int) := Int.natCast_nonneg _
  have hrc := rate.Limiter.reserve_cancel c.globalLimiter (c.clock.Now).1 p.length hn hg
  have hst := rate.Limiter.reserve_cancel_state c.globalLimiter (c.clock.Now).1 p.length hn hg
  have hdo := conn.do_local_infeasible c p f hg hl
  have hgl : (c.do p f).2.globalLimiter
      = (c.globalLimiter.ReserveN (c.clock.Now).1 p.length).1.CancelAt (c.clock.Now).1
          (c.globalLimiter.ReserveN (c.clock.Now).1 p.length).2 := by
    rw [hdo]
  refine ⟨by rw [hdo], by rw [hdo], conn.do_clock_nows c p f, by rw [hdo]; rfl, by rw [hdo],
    ?_, ?_, ?_, ?_, ?_, conn.doCalls_local_infeasible c p hg hl⟩
  · rw [hgl]; exact hrc.1
  · rw [hgl]; exact hrc.2.1
  · rw [hgl]; exact hrc.2.2
  · intro u h1 h2
    rw [hgl]
    rcases hst with ⟨_, h⟩ | ⟨_, h⟩
    · rw [h]
    · rw [h]; exact rate.Limiter.advance_after_settle _ _ _ h1 h2
  · intro h
    rw [hgl]
    rcases hst with ⟨_, h2⟩ | ⟨h2, _⟩
    · exact h2
    · exact absurd h h2

theorem refundConn_global_ok_zero :
    ((refundConn 0).globalLimiter.ReserveN ((refundConn 0).clock.Now).1
      (([5] : List Byte).length : Nat)).1.OK = true := by
  norm_num [refundConn, wrapConn, rate.NewLimiter, rate.Limiter.ReserveN, rate.Reservation.OK,
    Clock.Now, testClock, rate.Limiter.advance, rate.tokensFromDuration, chunkSize,
    rate.zero_ne_Inf]

theorem refundConn_global_ok_finite :
    ((refundConn 100).globalLimiter.ReserveN ((refundConn 100).clock.Now).1
      (([5] : List Byte).length : Nat)).1.OK = true := by
  have h : ¬ ((100 : ℚ) = rate.Inf) := by norm_num [rate.Inf]
  norm_num [refundConn, wrapConn, rate.NewLimiter, rate.Limiter.ReserveN, rate.Reservation.OK,
    Clock.Now, testClock, rate.Limiter.advance, rate.tokensFromDuration, chunkSize, h]

theorem refundConn_global_ok_unbounded :
    ((refundConn rate.Inf).globalLimiter.ReserveN ((refundConn rate.Inf).clock.Now).1
      (([5] : List Byte).length : Nat)).1.OK = true := by
  simp [refundConn, wrapConn, rate.NewLimiter, rate.Limiter.ReserveN, rate.Reservation.OK]

theorem refundConn_local_not_ok (g : rate.Limit) :
    ((refundConn g).localLimiter.ReserveN ((refundConn g).clock.Now).1
      (([5] : List Byte).length : Nat)).1.OK = false := by
  norm_num [refundConn, wrapConn, rate.Limiter.ReserveN, rate.Reservation.OK,
    Clock.Now, testClock, rate.Limiter.advance, rate.tokensFromDuration, chunkSize,
    rate.zero_ne_Inf]

/-- Witness of C11: a write of one byte on connections whose local budget is spent
and whose global budget is full, with a global rate of zero, of 100 and
unbounded. -/
theorem C11_global_reservation_refunded_witness :
    (((refundConn 0).globalLimiter.ReserveN ((refundConn 0).clock.Now).1
        (([5] : List Byte).length : Nat)).1.OK = true ∧
      ((refundConn 0).localLimiter.ReserveN ((refundConn 0).clock.Now).1
        (([5] : List Byte).length : Nat)).1.OK = false ∧
      ((refundConn 0).do [5] NetConn.Write).1.err = some Error.ErrUnfulfillableReservation ∧
      ((refundConn 0).do [5] NetConn.Write).2.Conn = (refundConn 0).Conn ∧
      ((refundConn 0).do [5] NetConn.Write).2.globalLimiter.advance ((refundConn 0).clock.Now).1
        = (refundConn 0).globalLimiter.advance ((refundConn 0).clock.Now).1) ∧
    (((refundConn 100).globalLimiter.ReserveN ((refundConn 100).clock.Now).1
        (([5] : List Byte).length : Nat)).1.OK = true ∧
      ((refundConn 100).localLimiter.ReserveN ((refundConn 100).clock.Now).1
        (([5] : List Byte).length : Nat)).1.OK = false ∧
      ((refundConn 100).do [5] NetConn.Write).1.err = some Error.ErrUnfulfillableReservation ∧
      ((refundConn 100).do [5] NetConn.Write).2.globalLimiter.advance
          ((refundConn 100).clock.Now).1
        = (refundConn 100).globalLimiter.advance ((refundConn 100).clock.Now).1) ∧
    (((refundConn rate.Inf).globalLimiter.ReserveN ((refundConn rate.Inf).clock.Now).1
        (([5] : List Byte).length : Nat)).1.OK = true ∧
      ((refundConn rate.Inf).localLimiter.ReserveN ((refundConn rate.Inf).clock.Now).1
        (([5] : List Byte).length : Nat)).1.OK = false ∧
      ((refundConn rate.Inf).do [5] NetConn.Write).1.err
        = some Error.ErrUnfulfillableReservation ∧
      ((refundConn rate.Inf).do [5] NetConn.Write).2.globalLimiter
        = (refundConn rate.Inf).globalLimiter) :=
  have h0 := C11_global_reservation_refunded (refundConn 0) [5] NetConn.Write
    refundConn_global_ok_zero (refundConn_local_not_ok 0)
  have h1 := C11_global_reservation_refunded (refundConn 100) [5] NetConn.Write
    refundConn_global_ok_finite (refundConn_local_not_ok 100)
  have h2 := C11_global_reservation_refunded (refundConn rate.Inf) [5] NetConn.Write
    refundConn_global_ok_unbounded (refundConn_local_not_ok rate.Inf)
  ⟨⟨refundConn_global_ok_zero, refundConn_local_not_ok 0, h0.2.1, h0.2.2.2.2.1,
      h0.2.2.2.2.2.2.2.1⟩,
   ⟨refundConn_global_ok_finite, refundConn_local_not_ok 100, h1.2.1, h1.2.2.2.2.2.2.2.1⟩,
   ⟨refundConn_global_ok_unbounded, refundConn_local_not_ok rate.Inf, h2.2.1,
      h2.2.2.2.2.2.2.2.2.2.1 rfl⟩⟩

/-! ## Pacing -/

/-- What `do` returns and leaves behind when both reservations are feasible. -/
theorem conn.do_both_feasible (c : conn) (p : List Byte)
    (f : NetConn → List Byte → IOResult × NetConn)
    (hg : (c.globalLimiter.ReserveN (c.clock.Now).1 p.length).1.OK = true)
    (hl : (c.localLimiter.ReserveN (c.clock.Now).1 p.length).1.OK = true) :
    c.do p f =
      ((f c.Conn p).1,
       { c with clock := (c.clock.Now).2.Sleep
                  (max ((c.globalLimiter.ReserveN (c.clock.Now).1 p.length).1.DelayFrom
                          (c.clock.Now).1)
                       ((c.localLimiter.ReserveN (c.clock.Now).1 p.length).1.DelayFrom
                          (c.clock.Now).1)),
                globalLimiter := (c.globalLimiter.ReserveN (c.clock.Now).1 p.length).2,
                localLimiter := (c.localLimiter.ReserveN (c.clock.Now).1 p.length).2,
                Conn := (f c.Conn p).2 }) := by
  simp [conn.do, hg, hl]

/-- The list of calls agrees with what `do` does to the clock and to the wrapped
stream, in every branch: `Now` is called once, the log of sleeps grows by the
`Sleep` calls of the list and the log of writes by its calls on the stream. -/
theorem conn.doCalls_agree (c : conn) (p : List Byte) :
    (c.doCalls p).count Call.Now = 1 ∧
    (c.do p NetConn.Write).2.clock.nows = c.clock.nows + (c.doCalls p).count Call.Now ∧
    (c.do p NetConn.Write).2.clock.sleeps
      = c.clock.sleeps ++ (c.doCalls p).filterMap Call.slept ∧
    (c.do p NetConn.Write).2.Conn.writes
      = c.Conn.writes ++ (c.doCalls p).filterMap Call.handed := by
  by_cases hg : (c.globalLimiter.ReserveN (c.clock.Now).1 p.length).1.OK = true
  · by_cases hl : (c.localLimiter.ReserveN (c.clock.Now).1 p.length).1.OK = true
    · rw [conn.do_both_feasible c p NetConn.Write hg hl, conn.doCalls_both_feasible c p hg hl]
      simp [Call.slept, Call.handed, Clock.Now, Clock.Sleep, NetConn.Write]
    · have hl2 : (c.localLimiter.ReserveN (c.clock.Now).1 p.length).1.OK = false := by
        simpa using hl
      rw [conn.do_local_infeasible c p NetConn.Write hg hl2,
        conn.doCalls_local_infeasible c p hg hl2]
      simp [Call.slept, Call.handed, Clock.Now]
  · have hg2 : (c.globalLimiter.ReserveN (c.clock.Now).1 p.length).1.OK = false := by
      simpa using hg
    rw [conn.do_global_infeasible c p NetConn.Write hg2, conn.doCalls_global_infeasible c p hg2]
    simp [Call.slept, Call.handed, Clock.Now]

/-- Claim C12.  When both reservations of `do` are feasible, `do` reads the clock
once and sleeps exactly once, for the larger of the delay of the global and the
delay of the local reservation, both measured from that one clock reading; the
wait is not shorter than either delay and is the global delay whenever that is
not the smaller one.  It then calls the operation of the wrapped stream exactly
once, on the slice as it was handed in, and returns what that call returns.  The
calls are made in this order: clock reading, global reservation, local
reservation, sleep, operation of the stream. -/
theorem C12_sleep_for_larger_delay_then_transfer (c : conn) (p : List Byte)
    (f : NetConn → List Byte → IOResult × NetConn)
    (hg : (c.globalLimiter.ReserveN (c.clock.Now).1 p.length).1.OK = true)
    (hl : (c.localLimiter.ReserveN (c.clock.Now).1 p.length).1.OK = true) :
    (c.do p f).2.clock.nows = c.clock.nows + 1 ∧
    (c.do p f).2.clock.sleeps = c.clock.sleeps ++
      [max ((c.globalLimiter.ReserveN (c.clock.Now).1 p.length).1.DelayFrom (c.clock.Now).1)
           ((c.localLimiter.ReserveN (c.clock.Now).1 p.length).1.DelayFrom (c.clock.Now).1)] ∧
    (∀ d ∈ ((c.do p f).2.clock.sleeps).drop c.clock.sleeps.length,
      (c.globalLimiter.ReserveN (c.clock.Now).1 p.length).1.DelayFrom (c.clock.Now).1 ≤ d ∧
      (c.localLimiter.ReserveN (c.clock.Now).1 p.length).1.DelayFrom (c.clock.Now).1 ≤ d ∧
      ((c.localLimiter.ReserveN (c.clock.Now).1 p.length).1.DelayFrom (c.clock.Now).1
          ≤ (c.globalLimiter.ReserveN (c.clock.Now).1 p.length).1.DelayFrom (c.clock.Now).1 →
        d = (c.globalLimiter.ReserveN (c.clock.Now).1 p.length).1.DelayFrom (c.clock.Now).1)) ∧
    (c.do p f).1 = (f c.Conn p).1 ∧
    (c.do p f).2.Conn = (f c.Conn p).2 ∧
    (c.do p NetConn.Read).2.Conn.reads = c.Conn.reads ++ [p] ∧
    (c.do p NetConn.Write).2.Conn.writes = c.Conn.writes ++ [p] ∧
    c.doCalls p =
      [Call.Now,
       Call.ReserveGlobal (c.clock.Now).1 p.length,
       Call.ReserveLocal (c.clock.Now).1 p.length,
       Call.Sleep
         (max ((c.globalLimiter.ReserveN (c.clock.Now).1 p.length).1.DelayFrom (c.clock.Now).1)
              ((c.localLimiter.ReserveN (c.clock.Now).1 p.length).1.DelayFrom (c.clock.Now).1)),
       Call.Raw p] := by
  have hdo := conn.do_both_feasible c p f hg hl
  have hsl : (c.do p f).2.clock.sleeps = c.clock.sleeps ++
      [max ((c.globalLimiter.ReserveN (c.clock.Now).1 p.length).1.DelayFrom (c.clock.Now).1)
           ((c.localLimiter.ReserveN (c.clock.Now).1 p.length).1.DelayFrom (c.clock.Now).1)] := by
    rw [hdo]; rfl
  refine ⟨conn.do_clock_nows c p f, hsl, ?_, by rw [hdo], by rw [hdo], ?_, ?_, ?_⟩
  · intro d hd
    rw [hsl, List.drop_left, List.mem_singleton] at hd
    subst hd
    exact ⟨le_max_left _ _, le_max_right _ _, fun h => max_eq_left h⟩
  · rw [conn.do_both_feasible c p NetConn.Read hg hl]
    simp [NetConn.Read]
  · rw [conn.do_both_feasible c p NetConn.Write hg hl]
    simp [NetConn.Write]
  · exact conn.doCalls_both_feasible c p hg hl

theorem pacedConn_global_ok :
    (pacedConn.globalLimiter.ReserveN (pacedConn.clock.Now).1
      (([1, 2, 3, 4] : List Byte).length : Nat)).1.OK = true := by
  have h : ¬ ((1 : ℚ) = rate.Inf) := by norm_num [rate.Inf]
  norm_num [pacedConn, wrapConn, rate.Limiter.ReserveN, rate.Reservation.OK, Clock.Now,
    testClock, rate.Limiter.advance, rate.tokensFromDuration, chunkSize, h]

theorem pacedConn_local_ok :
    (pacedConn.localLimiter.ReserveN (pacedConn.clock.Now).1
      (([1, 2, 3, 4] : List Byte).length : Nat)).1.OK = true := by
  have h : ¬ ((2 : ℚ) = rate.Inf) := by norm_num [rate.Inf]
  norm_num [pacedConn, wrapConn, rate.Limiter.ReserveN, rate.Reservation.OK, Clock.Now,
    testClock, rate.Limiter.advance, rate.tokensFromDuration, chunkSize, h]

theorem pacedConn_delays :
    (pacedConn.globalLimiter.ReserveN (pacedConn.clock.Now).1
      (([1, 2, 3, 4] : List Byte).length : Nat)).1.DelayFrom (pacedConn.clock.Now).1 = 4 ∧
    (pacedConn.localLimiter.ReserveN (pacedConn.clock.Now).1
      (([1, 2, 3, 4] : List Byte).length : Nat)).1.DelayFrom (pacedConn.clock.Now).1 = 2 := by
  have h1 : ¬ ((1 : ℚ) = rate.Inf) := by norm_num [rate.Inf]
  have h2 : ¬ ((2 : ℚ) = rate.Inf) := by norm_num [rate.Inf]
  constructor <;>
  norm_num [pacedConn, wrapConn, rate.Limiter.ReserveN, rate.Reservation.DelayFrom, Clock.Now,
    testClock, rate.Limiter.advance, rate.tokensFromDuration, chunkSize, h1, h2]

/-- Witness of C12: a write of four bytes at time zero on a connection whose empty
budgets refill at one token per second (global) and two tokens per second
(local).  The global delay is four seconds and the local one two; `do` sleeps
once, for four seconds, and hands the four bytes to the stream. -/
theorem C12_sleep_for_larger_delay_then_transfer_witness :
    (pacedConn.globalLimiter.ReserveN (pacedConn.clock.Now).1
      (([1, 2, 3, 4] : List Byte).length : Nat)).1.OK = true ∧
    (pacedConn.localLimiter.ReserveN (pacedConn.clock.Now).1
      (([1, 2, 3, 4] : List Byte).length : Nat)).1.OK = true ∧
    (pacedConn.do [1, 2, 3, 4] NetConn.Write).2.clock.sleeps = [4] ∧
    (pacedConn.do [1, 2, 3, 4] NetConn.Write).2.Conn.writes = [[1, 2, 3, 4]] ∧
    (pacedConn.do [1, 2, 3, 4] NetConn.Write).1.n = 4 ∧
    (pacedConn.do [1, 2, 3, 4] NetConn.Write).1.err = none :=
  have h := C12_sleep_for_larger_delay_then_transfer pacedConn [1, 2, 3, 4] NetConn.Write
    pacedConn_global_ok pacedConn_local_ok
  ⟨pacedConn_global_ok, pacedConn_local_ok,
   by rw [h.2.1, pacedConn_delays.1, pacedConn_delays.2]; norm_num [pacedConn, wrapConn, testClock],
   by rw [h.2.2.2.2.2.2.1]; rfl,
   by rw [h.2.2.2.1]; rfl,
   by rw [h.2.2.2.1]; rfl⟩

/-! ## forEachChunk against its reference definition -/

/-- A recorded pass runs through the sub-slices on which the callback returns
true: each of them is put on the log and the callback state moves on. -/
theorem runChunks_recorded_append {T σ : Type} (f : List T → σ → Bool × σ)
    (rest : List (List T)) :
    ∀ (pre : List (List T)) (log : List (List T)) (s : σ), AllTrue f pre s →
      runChunks (recorded f) (pre ++ rest) (log, s)
        = runChunks (recorded f) rest (log ++ pre, passAll f pre s) := by
  intro pre
  induction pre with
  | nil => intro log s _; simp [passAll]
  | cons ch pre ih =>
    intro log s h
    have hv : ¬ (recorded f ch (log, s)).1 = false := by
      simp [recorded, h.1]
    rw [List.cons_append, runChunks, if_neg hv]
    have h2 := ih (log ++ [ch]) (f ch s).2 h.2
    simp only [recorded] at h2 ⊢
    rw [h2]
    simp [passAll]

theorem AllTrue_of_always {T σ : Type} (f : List T → σ → Bool × σ)
    (h : ∀ ch t, (f ch t).1 = true) : ∀ (chs : List (List T)) (s : σ), AllTrue f chs s := by
  intro chs
  induction chs with
  | nil => intro s; trivial
  | cons ch rest ih => intro s; exact ⟨h ch s, ih _⟩

/-- The number of sub-slices of the reference chunking is the quotient of the
length by the size, rounded up. -/
theorem chunks_length_ceil {T : Type} (n : Nat) (hn : 0 < n) (p : List T) :
    (chunks n p).length = (p.length + n - 1) / n ∧
    (chunks n p).length = ⌈(p.length : ℚ) / (n : ℚ)⌉₊ := by
  have hlen : (chunks n p).length = (p.length + n - 1) / n := by simp [chunks]
  refine ⟨hlen, ?_⟩
  rw [hlen]
  have hnq : (0 : ℚ) < (n : ℚ) := by exact_mod_cast hn
  have hup : p.length ≤ (p.length + n - 1) / n * n := by
    have h := (chunks_count_lt p.length n ((p.length + n - 1) / n) hn).not
    exact not_lt.mp (h.mp (lt_irrefl _))
  apply le_antisymm
  · by_cases h0 : (p.length + n - 1) / n = 0
    · rw [h0]; exact Nat.zero_le _
    · have hlt : (p.length + n - 1) / n - 1 < (p.length + n - 1) / n := by omega
      have h1 := (chunks_count_lt p.length n _ hn).mp hlt
      have h2 : (p.length + n - 1) / n - 1 < ⌈(p.length : ℚ) / (n : ℚ)⌉₊ := by
        rw [Nat.lt_ceil, lt_div_iff₀ hnq]
        exact_mod_cast h1
      omega
  · rw [Nat.ceil_le, div_le_iff₀ hnq]
    exact_mod_cast hup

/-- The shape of the sub-slices of the reference chunking: the sub-slice numbered
`k` is `p[k*n : k*n+n]` cut off at the end of `p`, it is not empty, it has length
`n` unless it is the last one, and the last one holds the rest of `p`, which is
shorter than `n` exactly when `n` does not divide the length of `p`. -/
theorem chunks_shape {T : Type} (n : Nat) (hn : 0 < n) (p : List T) (k : Nat)
    (hk : k < (chunks n p).length) :
    (chunks n p)[k] = (p.take (k * n + n)).drop (k * n) ∧
    (chunks n p)[k] ≠ [] ∧
    (k + 1 < (chunks n p).length → ((chunks n p)[k]).length = n) ∧
    (k + 1 = (chunks n p).length →
      ((chunks n p)[k]).length = p.length - n * ((chunks n p).length - 1) ∧
      ((chunks n p)[k]).length ≤ n ∧
      (((chunks n p)[k]).length < n ↔ ¬ n ∣ p.length)) := by
  have hcount : (chunks n p).length = (p.length + n - 1) / n := (chunks_length_ceil n hn p).1
  have hget : (chunks n p)[k] = (p.take (k * n + n)).drop (k * n) := by
    simp [chunks]
  have hlen : ((chunks n p)[k]).length = min (k * n + n) p.length - k * n := by
    rw [hget, List.length_drop, List.length_take]
  have hklt : k * n < p.length := by
    rw [hcount] at hk
    exact (chunks_count_lt p.length n k hn).mp hk
  refine ⟨hget, ?_, ?_, ?_⟩
  · intro h
    rw [h] at hlen
    simp only [List.length_nil] at hlen
    omega
  · intro h
    rw [hcount] at h
    have h2 := (chunks_count_lt p.length n (k + 1) hn).mp h
    rw [Nat.add_mul, Nat.one_mul] at h2
    omega
  · intro h
    have hnot : ¬ (k + 1) * n < p.length := by
      rw [← chunks_count_lt p.length n (k + 1) hn, ← hcount, h]
      exact lt_irrefl _
    rw [Nat.add_mul, Nat.one_mul] at hnot
    have hk1 : (chunks n p).length - 1 = k := by omega
    have hmul : n * k = k * n := Nat.mul_comm _ _
    refine ⟨by rw [hlen, hk1, hmul]; omega, by omega, ?_⟩
    rw [hlen]
    constructor
    · intro hlt hdvd
      obtain ⟨m, hm⟩ := hdvd
      have h1 : k < m := by
        by_contra hc
        have : n * m ≤ n * k := Nat.mul_le_mul_left n (not_lt.mp hc)
        omega
      have h2 : n * (k + 1) ≤ n * m := Nat.mul_le_mul_left n h1
      rw [Nat.mul_add, Nat.mul_one] at h2
      omega
    · intro hndvd
      by_contra hc
      apply hndvd
      refine ⟨k + 1, ?_⟩
      rw [Nat.mul_add, Nat.mul_one]
      omega

/-! ## The loop variables as Go integers -/

/-- For a slice of at most 2^62 elements the loop with 64 bit loop variables never
wraps around and never panics: it does what the loop over natural numbers
does. -/
theorem forEachChunk.loop64_eq_loop {T σ : Type} (p : List T) (size : Int) (hs : 1 ≤ size)
    (hs2 : size < 2 ^ 63) (hp : (p.length : Int) ≤ 2 ^ 62) (f : List T → σ → Bool × σ) :
    ∀ (fuel i : Nat) (s : σ), (i = 0 ∨ size.toNat ≤ i) → (i : Int) < 2 ^ 63 →
      p.length ≤ fuel + i →
      forEachChunk.loop64 p size f fuel (i : Int) ((min i p.length : Nat) : Int) s
        = some (forEachChunk.loop p size.toNat f fuel i (min i p.length) s) := by
  have hsz : (size.toNat : Int) = size := Int.toNat_of_nonneg (by omega)
  intro fuel
  induction fuel with
  | zero =>
    intro i s _ _ hfuel
    have hge : ¬ ((i : Int) < (p.length : Int)) := by omega
    simp [forEachChunk.loop64, forEachChunk.loop, hge]
  | succ fuel ih =>
    intro i s hi hi63 hfuel
    by_cases hlt : i < p.length
    · have hlt2 : (i : Int) < (p.length : Int) := by omega
      have hmin : min i p.length = i := by omega
      have hsum : (i : Int) + size < 2 ^ 63 := by omega
      have hj1 : addInt (i : Int) size = ((i + size.toNat : Nat) : Int) := by
        rw [addInt, wrapInt_of_range _ (by omega) hsum]
        push_cast
        rw [hsz]
      have hj2 : (if ((i + size.toNat : Nat) : Int) > (p.length : Int) then (p.length : Int)
          else ((i + size.toNat : Nat) : Int))
          = ((min (i + size.toNat) p.length : Nat) : Int) := by
        split <;> omega
      have hj2n : (if i + size.toNat > p.length then p.length else i + size.toNat)
          = min (i + size.toNat) p.length := by
        split <;> omega
      have hvalid : (0 : Int) ≤ (i : Int) ∧
          (i : Int) ≤ ((min (i + size.toNat) p.length : Nat) : Int) ∧
          ((min (i + size.toNat) p.length : Nat) : Int) ≤ (p.length : Int) := by
        omega
      have hnext := ih (i + size.toNat) (f ((p.take (min (i + size.toNat) p.length)).drop i) s).2
        (Or.inr (by omega)) (by push_cast; rw [hsz]; exact hsum) (by omega)
      simp only [forEachChunk.loop64, forEachChunk.loop, hlt, hlt2, if_true, hmin, hj1, hj2,
        hj2n, hvalid, and_self, Int.toNat_ofNat]
      split
      · rfl
      · exact hnext
    · have hge : ¬ ((i : Int) < (p.length : Int)) := by omega
      simp [forEachChunk.loop64, forEachChunk.loop, hlt, hge]

/-- For every size a Go `int` can hold and every slice of at most 2^62 elements,
`forEachChunk` with 64 bit loop variables returns, and returns what
`forEachChunk` with natural numbers returns. -/
theorem forEachChunk64_eq_forEachChunk {T σ : Type} (p : List T) (size : Int)
    (hs2 : size < 2 ^ 63) (hp : (p.length : Int) ≤ 2 ^ 62) (f : List T → σ → Bool × σ)
    (s : σ) :
    forEachChunk64 p size f s = some (forEachChunk p size f s) := by
  by_cases hs : size < 1
  · simp [forEachChunk64, forEachChunk, hs]
  · have h := forEachChunk.loop64_eq_loop p size (by omega) hs2 hp f p.length 0 s
      (Or.inl rfl) (by norm_num) (by omega)
    simp only [Nat.zero_min, Nat.cast_zero] at h
    simp only [forEachChunk64, forEachChunk, hs, if_false, h]

/-- Claim C13.  The function `forEachChunk` against its reference definition, for
every slice `p`, every size, every callback `f` and every state `s` of the
callback; `recorded f` is `f` with a log of the sub-slices it is called on.
For a size below one the callback is never invoked.  For a size `n` of at least
one, `forEachChunk` is the sequential pass over the reference chunking
`p[0:n]`, `p[n:2n]`, ...; a callback that always returns true is invoked on
exactly these sub-slices, in order; a callback that returns false on a sub-slice
has been invoked on the sub-slices up to that one and on none after it.  The
reference chunking has as many sub-slices as the quotient of the length of `p`
by `n`, rounded up; none is empty, each has length `n` except the last, which
holds the remaining `len(p) - n * (count - 1)` elements, at most `n` and fewer
than `n` exactly when `n` does not divide the length; put together they are
`p`.  The loop counts in natural numbers; for every size a Go `int` can hold and
every slice of at most 2^62 elements the loop with 64 bit loop variables
returns the same result, without wrapping around and without a panic. -/
theorem C13_forEachChunk_reference {T σ : Type} (p : List T) (size : Int)
    (f : List T → σ → Bool × σ) (s : σ) :
    (size < 1 →
      forEachChunk p size f s = s ∧
      forEachChunk p size (recorded f) ([], s) = ([], s)) ∧
    (1 ≤ size →
      forEachChunk p size f s = runChunks f (chunks size.toNat p) s ∧
      ((∀ ch t, (f ch t).1 = true) →
        forEachChunk p size (recorded f) ([], s)
          = (chunks size.toNat p, passAll f (chunks size.toNat p) s)) ∧
      (∀ (pre post : List (List T)) (ch : List T),
        chunks size.toNat p = pre ++ ch :: post → AllTrue f pre s →
        (f ch (passAll f pre s)).1 = false →
        forEachChunk p size (recorded f) ([], s)
          = (pre ++ [ch], (f ch (passAll f pre s)).2)) ∧
      (chunks size.toNat p).length = (p.length + size.toNat - 1) / size.toNat ∧
      (chunks size.toNat p).length = ⌈(p.length : ℚ) / (size.toNat : ℚ)⌉₊ ∧
      (∀ (k : Nat) (hk : k < (chunks size.toNat p).length),
        (chunks size.toNat p)[k]
          = (p.take (k * size.toNat + size.toNat)).drop (k * size.toNat) ∧
        (chunks size.toNat p)[k] ≠ [] ∧
        (k + 1 < (chunks size.toNat p).length →
          ((chunks size.toNat p)[k]).length = size.toNat) ∧
        (k + 1 = (chunks size.toNat p).length →
          ((chunks size.toNat p)[k]).length
            = p.length - size.toNat * ((chunks size.toNat p).length - 1) ∧
          ((chunks size.toNat p)[k]).length ≤ size.toNat ∧
          (((chunks size.toNat p)[k]).length < size.toNat ↔ ¬ size.toNat ∣ p.length))) ∧
      (chunks size.toNat p).flatten = p) ∧
    (size < 2 ^ 63 → (p.length : Int) ≤ 2 ^ 62 →
      forEachChunk64 p size f s = some (forEachChunk p size f s)) := by
  refine ⟨?_, ?_, fun h1 h2 => forEachChunk64_eq_forEachChunk p size h1 h2 f s⟩
  · intro h
    simp [forEachChunk, h]
  · intro h
    have hn : 0 < size.toNat := by omega
    refine ⟨forEachChunk_eq_runChunks p size h f s, ?_, ?_, (chunks_length_ceil _ hn p).1,
      (chunks_length_ceil _ hn p).2, fun k hk => chunks_shape _ hn p k hk,
      chunks_flatten _ hn p⟩
    · intro hall
      rw [forEachChunk_eq_runChunks p size h]
      have h2 := runChunks_recorded_append f [] (chunks size.toNat p) [] s
        (AllTrue_of_always f hall _ s)
      rw [List.append_nil] at h2
      rw [h2]
      simp [runChunks]
    · intro pre post ch hch hpre hfalse
      rw [forEachChunk_eq_runChunks p size h, hch,
        runChunks_recorded_append f (ch :: post) pre [] s hpre]
      have hv : (recorded f ch ([] ++ pre, passAll f pre s)).1 = false := by
        simp [recorded, hfalse]
      rw [runChunks, if_pos hv]
      simp [recorded]

theorem chunks_test_slice :
    chunks (2 : Int).toNat ([1, 2, 3] : List Nat) = [[1, 2], [3]] := by
  decide

/-- Witness of C13, on the slice `[1, 2, 3]` of `TestForEachChunk`: with size -1
the callback is not invoked; with size 2 a callback that always returns true is
invoked on `[1, 2]` and `[3]`, the last sub-slice having the one remaining
element; a callback that returns false is invoked on `[1, 2]` only. -/
theorem C13_forEachChunk_reference_witness :
    (((-1 : Int) < 1) ∧
      forEachChunk ([1, 2, 3] : List Nat) (-1) (recorded keepGoing) ([], ()) = ([], ())) ∧
    (((1 : Int) ≤ 2) ∧ (∀ ch t, (keepGoing ch t).1 = true) ∧
      forEachChunk ([1, 2, 3] : List Nat) 2 (recorded keepGoing) ([], ())
        = ([[1, 2], [3]], ())) ∧
    (chunks (2 : Int).toNat ([1, 2, 3] : List Nat) = [] ++ [1, 2] :: [[3]] ∧
      AllTrue stopAtOnce [] () ∧ (stopAtOnce [1, 2] (passAll stopAtOnce [] ())).1 = false ∧
      forEachChunk ([1, 2, 3] : List Nat) 2 (recorded stopAtOnce) ([], ())
        = ([[1, 2]], ())) ∧
    ((1 : Nat) < (chunks (2 : Int).toNat ([1, 2, 3] : List Nat)).length ∧
      1 + 1 = (chunks (2 : Int).toNat ([1, 2, 3] : List Nat)).length ∧
      (((chunks (2 : Int).toNat ([1, 2, 3] : List Nat)).get
        ⟨1, by rw [chunks_test_slice]; decide⟩).length < (2 : Int).toNat ↔
        ¬ (2 : Int).toNat ∣ ([1, 2, 3] : List Nat).length)) ∧
    (((2 : Int) < 2 ^ 63) ∧ ((([1, 2, 3] : List Nat).length : Int) ≤ 2 ^ 62) ∧
      forEachChunk64 ([1, 2, 3] : List Nat) 2 (recorded keepGoing) ([], ())
        = some ([[1, 2], [3]], ())) :=
  have hneg := (C13_forEachChunk_reference ([1, 2, 3] : List Nat) (-1) keepGoing ()).1
    (by decide)
  have htrue : ∀ ch t, (keepGoing ch t).1 = true := fun _ _ => rfl
  have hpos := (C13_forEachChunk_reference ([1, 2, 3] : List Nat) 2 keepGoing ()).2.1
    (by decide)
  have hstop := (C13_forEachChunk_reference ([1, 2, 3] : List Nat) 2 stopAtOnce ()).2.1
    (by decide)
  have hk : (1 : Nat) < (chunks (2 : Int).toNat ([1, 2, 3] : List Nat)).length := by
    rw [chunks_test_slice]; decide
  have hlast : 1 + 1 = (chunks (2 : Int).toNat ([1, 2, 3] : List Nat)).length := by
    rw [chunks_test_slice]; rfl
  ⟨⟨by decide, hneg.2⟩,
   ⟨by decide, htrue, by rw [hpos.2.1 htrue, chunks_test_slice]⟩,
   ⟨chunks_test_slice, trivial, rfl,
    hstop.2.2.1 [] [[3]] [1, 2] chunks_test_slice trivial rfl⟩,
   ⟨hk, hlast, ((hpos.2.2.2.2.2.1 1 hk).2.2.2 hlast).2.2⟩,
   ⟨by norm_num, by norm_num,
    by
      rw [(C13_forEachChunk_reference ([1, 2, 3] : List Nat) 2 (recorded keepGoing)
        ([], ())).2.2 (by norm_num) (by norm_num), hpos.2.1 htrue, chunks_test_slice]⟩⟩

end Tcplimit
